import Mathlib

/-!
Verification of the ground-decal scar subsystem of
`src/rts/Rendering/Env/Decals/GroundDecalHandler.cpp`.

The scar table, free/used id lists, spatial index (`scarField`) and the
operations `GetScarID`, `AddExplosion`, `AddScars`, `TestScarOverlaps`,
`RemoveScar`, `DrawScars`, `ScarOverlapSize` and `GetSolidObjectDecalType`
are embedded shallowly below.  C++ `int` becomes `Int`; C++ integer
division (truncation toward zero) becomes `Int.tdiv`; `std::vector`
becomes `List`.  Floating-point quantities that only feed the renderer
(positions, alpha, texture offsets, vertex arrays) are not represented;
where a claim depends on the float pipeline of `AddExplosion`
(the bounding-rectangle computation) the floats are modelled as exact
rationals.
-/

namespace GroundDecals

/-- Modelled from the spec: `spring::VectorBackPop` (`System/ContainerUtil.h`
is not part of this excerpt).  The free/used-id allocator hands out the last
element of the vector and removes it: "fixed-capacity array of scar records
plus a free/used-id allocator". -/
def VectorBackPop (v : List Int) : Int × List Int :=
  (v.getLastD 0, v.dropLast)

/-- Modelled from the spec: `spring::VectorErase` (`System/ContainerUtil.h`
is not part of this excerpt).  Removes one occurrence of `e` by overwriting
its first position with the back element and popping the back; used by the
removal path so that "a scar's id no longer appears in any spatial-index
cell". -/
def VectorErase (v : List Int) (e : Int) : List Int :=
  match v.findIdx? (fun x => x = e) with
  | none => v
  | some k => (v.set k (v.getLastD 0)).dropLast

/-- Modelled from the spec: `spring::VectorInsertUnique`
(`System/ContainerUtil.h` is not part of this excerpt).  Appends `e` if it
is not already present, so an id "is present in the free-id set exactly
once". -/
def VectorInsertUnique (v : List Int) (e : Int) : List Int :=
  if e ∈ v then v else v ++ [e]

/-- TEX_QUAD_SIZE from GroundDecalHandler.cpp line 40. -/
def TEX_QUAD_SIZE : Int := 16

/-- The integer fields of `CGroundDecalHandler::Scar` that the scar-table
logic reads and writes (the float-only visual fields - position, radius,
alpha, texture offsets, vertex array - feed the renderer only and are not
modelled). -/
structure Scar where
  id : Int
  creationTime : Int
  lifeTime : Int
  x1 : Int
  y1 : Int
  x2 : Int
  y2 : Int
  basesize : Int
  overdrawn : Int
  lastTest : Int
deriving DecidableEq, Repr

/-- Modelled from the spec: `Scar::Reset` (the class declaration in
`GroundDecalHandler.h` is not part of this excerpt).  Removal "reset[s] its
record"; the slot is free afterwards, so every bookkeeping field is cleared
and the id no longer names a live scar. -/
def Scar.reset : Scar :=
  { id := -1, creationTime := 0, lifeTime := 0, x1 := 0, y1 := 0, x2 := 0,
    y2 := 0, basesize := 0, overdrawn := 0, lastTest := 0 }

/-- CGroundDecalHandler::ScarOverlapSize, GroundDecalHandler.cpp
lines 765-776. -/
def ScarOverlapSize (s1 s2 : Scar) : Int :=
  if s1.x1 ≥ s2.x2 ∨ s1.x2 ≤ s2.x1 then 0
  else if s1.y1 ≥ s2.y2 ∨ s1.y2 ≤ s2.y1 then 0
  else
    (if s1.x1 < s2.x1 then s1.x2 - s2.x1 else s2.x2 - s1.x1) *
    (if s1.y1 < s2.y1 then s1.y2 - s2.y1 else s2.y2 - s1.y1)

/-- Follows the spec's words, for comparison with `ScarOverlapSize`: the
exact area of the 2D axis-aligned intersection of the two bounding
rectangles, zero when they do not intersect. -/
def specExactOverlapArea (s1 s2 : Scar) : Int :=
  max 0 (min s1.x2 s2.x2 - max s1.x1 s2.x1) *
  max 0 (min s1.y2 s2.y2 - max s1.y1 s2.y1)

/-- Concrete input refuting C4: scar `c4big`'s rectangle strictly contains
scar `c4small`'s on the x axis, and `ScarOverlapSize` overestimates. -/
def c4big : Scar :=
  { Scar.reset with x1 := 0, y1 := 0, x2 := 10, y2 := 2 }

/-- Concrete contained scar for the C4 counterexample. -/
def c4small : Scar :=
  { Scar.reset with x1 := 2, y1 := 0, x2 := 4, y2 := 2 }

/-- Concrete input refuting C5: two scars sharing their left edge
(x1 = 0 on both) with different widths. -/
def c5wide : Scar :=
  { Scar.reset with x1 := 0, y1 := 0, x2 := 10, y2 := 1 }

/-- Concrete narrower scar sharing the left edge for the C5
counterexample. -/
def c5narrow : Scar :=
  { Scar.reset with x1 := 0, y1 := 0, x2 := 5, y2 := 1 }

/-- Concrete pair with distinct x1 and distinct y1 for the C5 witness. -/
def c5p : Scar :=
  { Scar.reset with x1 := 0, y1 := 0, x2 := 4, y2 := 3 }

/-- Second concrete scar of the C5 witness pair. -/
def c5q : Scar :=
  { Scar.reset with x1 := 1, y1 := 2, x2 := 5, y2 := 6 }

/-- Ghost instrumentation: a log entry per overlap accumulation
(line 810) and per scar removal (RemoveScar).  The log is write-only:
no operation reads it, so it does not alter control flow; it only makes
"T accumulates overlap at most once" and "T is removed only above the
threshold" directly expressible. -/
inductive GDEvent where
  | accum (tid delta od : Int)
  | removed (tid lifeTime od : Int)
deriving DecidableEq, Repr

/-- The scar-table state of CGroundDecalHandler: the file-static `scars`
array (lines 44-51, modelled as a total function from slot index to
record), the free/used id vectors, the pending-insert list `addedScars`,
the spatial index `scarField` with its dimensions, the overlap-pass
counter and threshold, plus the ghost event log. -/
structure GDState where
  scars : Int → Scar
  freeScarIDs : List Int
  usedScarIDs : List Int
  addedScars : List Int
  scarField : List (List Int)
  scarFieldX : Int
  scarFieldY : Int
  lastScarOverlapTest : Int
  maxScarOverlapSize : Int
  events : List GDEvent

/-- Write one slot of the scars array. -/
def setScar (f : Int → Scar) (i : Int) (s : Scar) : Int → Scar :=
  fun j => if j = i then s else f j

/-- Closed integer interval [a, b] as a list (empty when b < a); models
`for (v = a; v <= b; ++v)`. -/
def intRange (a b : Int) : List Int :=
  (List.range (b + 1 - a).toNat).map (fun k => a + k)

/-- The flat spatial-index cell indices covered by scar s: x runs from
s.x1/TEX_QUAD_SIZE to min(scarFieldX-1, s.x2/TEX_QUAD_SIZE) and y likewise,
visited row by row with flat index y * scarFieldX + x.  This same range
expression appears verbatim in AddScars (lines 492-499), TestScarOverlaps
(lines 781-790) and RemoveScar (lines 822-829). -/
def scarCellIndices (fX fY : Int) (s : Scar) : List Int :=
  (intRange (Int.tdiv s.y1 TEX_QUAD_SIZE)
      (min (fY - 1) (Int.tdiv s.y2 TEX_QUAD_SIZE))).flatMap
    (fun y => (intRange (Int.tdiv s.x1 TEX_QUAD_SIZE)
        (min (fX - 1) (Int.tdiv s.x2 TEX_QUAD_SIZE))).map
      (fun x => y * fX + x))

/-- Read spatial-index cell k (flat index).  C++ indexes the backing
vector directly; an out-of-range read would be undefined behaviour there
and gives the empty cell here (theorem C10 shows real scars stay in
bounds). -/
def getCell (field : List (List Int)) (k : Int) : List Int :=
  if 0 ≤ k then field.getD k.toNat [] else []

/-- Overwrite spatial-index cell k (flat index); out-of-range writes are
no-ops (undefined behaviour in the C++, ruled out by C10 for real
scars). -/
def setCell (field : List (List Int)) (k : Int) (q : List Int) :
    List (List Int) :=
  if 0 ≤ k then field.set k.toNat q else field

/-- CGroundDecalHandler::RemoveScar, lines 820-838: erase the scar's id
from every spatial-index cell its rectangle covers, recycle the id into
the free list, erase it from the used list, and reset the record.  Also
appends the ghost removal event (the id with its lifeTime and overdrawn
counter at removal). -/
def RemoveScar (st : GDState) (sid : Int) : GDState :=
  let s := st.scars sid
  let field' := (scarCellIndices st.scarFieldX st.scarFieldY s).foldl
    (fun f k => setCell f k (VectorErase (getCell f k) s.id)) st.scarField
  { st with
    scarField := field'
    freeScarIDs := VectorInsertUnique st.freeScarIDs s.id
    usedScarIDs := VectorErase st.usedScarIDs s.id
    scars := setScar st.scars sid Scar.reset
    events := st.events ++ [GDEvent.removed s.id s.lifeTime s.overdrawn] }

/-- Body of the innermost loop of CGroundDecalHandler::TestScarOverlaps,
lines 795-813, for the quad entry tid: skip if already stamped with the
current pass counter, skip if the new scar's lifeTime is below the
candidate's, otherwise stamp, compute the overlap area, skip zero overlap
or zero basesize, accumulate the integer-truncated ratio onto overdrawn
(with a ghost accum event) and remove the candidate when the accumulated
counter exceeds maxScarOverlapSize. -/
def processEntry (passCtr maxO : Int) (scar : Scar) (st : GDState)
    (tid : Int) : GDState :=
  let testScar := st.scars tid
  if passCtr = testScar.lastTest then st
  else if scar.lifeTime < testScar.lifeTime then st
  else
    let t1 := { testScar with lastTest := passCtr }
    let st1 := { st with scars := setScar st.scars tid t1 }
    let overlapSize := ScarOverlapSize scar t1
    if overlapSize = 0 ∨ t1.basesize = 0 then st1
    else
      let delta := Int.tdiv overlapSize t1.basesize
      let t2 := { t1 with overdrawn := t1.overdrawn + delta }
      let st2 := { st1 with
        scars := setScar st1.scars tid t2
        events := st1.events ++
          [GDEvent.accum tid delta (t1.overdrawn + delta)] }
      if t1.overdrawn + delta ≤ maxO then st2 else RemoveScar st2 tid

/-- The state written by the stamp-only path of processEntry (lines
802-808 when the overlap or basesize guard skips). -/
def stampState (passCtr : Int) (st : GDState) (tid : Int) : GDState :=
  { st with
    scars := setScar st.scars tid
      ({ st.scars tid with lastTest := passCtr }) }

/-- The state written by the accumulation path of processEntry (line 810),
ghost event included; the two setScar layers mirror the two record writes
of the C++ (stamp at line 802, then the overdrawn update at line 810). -/
def accumState (passCtr : Int) (scar : Scar) (st : GDState) (tid : Int) :
    GDState :=
  { st with
    scars := setScar (setScar st.scars tid
        ({ st.scars tid with lastTest := passCtr })) tid
      ({ st.scars tid with
          lastTest := passCtr
          overdrawn := (st.scars tid).overdrawn +
            Int.tdiv (ScarOverlapSize scar
              ({ st.scars tid with lastTest := passCtr }))
              (st.scars tid).basesize })
    events := st.events ++
      [GDEvent.accum tid
        (Int.tdiv (ScarOverlapSize scar
          ({ st.scars tid with lastTest := passCtr }))
          (st.scars tid).basesize)
        ((st.scars tid).overdrawn +
          Int.tdiv (ScarOverlapSize scar
            ({ st.scars tid with lastTest := passCtr }))
            (st.scars tid).basesize)] }

/-- Constructor initialisation of the eviction threshold,
GroundDecalHandler.cpp line 87: maxScarOverlapSize = decalLevel + 1. -/
def initMaxScarOverlapSize (decalLevel : Int) : Int := decalLevel + 1

/-- Ghost helper: is this event an accumulation onto tid (line 810)? -/
def isAccumOf (tid : Int) : GDEvent → Bool
  | GDEvent.accum t _ _ => t == tid
  | GDEvent.removed _ _ _ => false

/-- Number of accumulation events onto tid in an event list. -/
def accumCount (evs : List GDEvent) (tid : Int) : Nat :=
  (evs.filter (isAccumOf tid)).length

/-- Inner loop of TestScarOverlaps over one cell (lines 794-814): the
index i runs against the live cell list, which can shrink when an entry
is removed (C++ re-reads quad.size() every iteration).  `fuel` bounds the
iteration count; since processEntry never lengthens a cell and every
iteration advances i by one, the cell's length at entry is sufficient
fuel: after (initial length) iterations i is at least the live length and
the loop has ended. -/
def quadLoop (passCtr maxO : Int) (scar : Scar) (cell : Int) :
    Nat → GDState → Nat → GDState
  | 0, st, _ => st
  | fuel + 1, st, i =>
    let quad := getCell st.scarField cell
    if h : i < quad.length then
      quadLoop passCtr maxO scar cell fuel
        (processEntry passCtr maxO scar st (quad.get ⟨i, h⟩)) (i + 1)
    else st

/-- CGroundDecalHandler::TestScarOverlaps, lines 779-817: increment the
pass counter once, then run the inner loop over every cell covered by the
new scar's rectangle.  The new scar is passed by value: the C++ passes a
const reference into the scars array, but the callers only pass records
that are not yet in the spatial index, so no mutation of the loop can
alias it. -/
def TestScarOverlaps (st : GDState) (scar : Scar) : GDState :=
  let passCtr := st.lastScarOverlapTest + 1
  let st0 := { st with lastScarOverlapTest := passCtr }
  (scarCellIndices st.scarFieldX st.scarFieldY scar).foldl
    (fun s k =>
      quadLoop passCtr s.maxScarOverlapSize scar k
        (getCell s.scarField k).length s 0) st0

/-- Second loop body of CGroundDecalHandler::AddScars, lines 489-504:
insert the scar's id into every covered cell and push it onto the used
list. -/
def insertScarIntoField (st : GDState) (id : Int) : GDState :=
  let s := st.scars id
  let field' := (scarCellIndices st.scarFieldX st.scarFieldY s).foldl
    (fun f k => setCell f k (VectorInsertUnique (getCell f k) s.id))
    st.scarField
  { st with scarField := field', usedScarIDs := st.usedScarIDs ++ [id] }

/-- CGroundDecalHandler::AddScars, lines 482-507: first run the eviction
pass for every pending scar, then commit each one into the spatial index
and the used list, then clear the pending list.  (No operation invoked
here touches addedScars, so folding over the entry value of the list is
the loop of the C++.) -/
def AddScars (st : GDState) : GDState :=
  let st1 := st.addedScars.foldl (fun s id => TestScarOverlaps s (s.scars id)) st
  let st2 := st.addedScars.foldl insertScarIntoField st1
  { st2 with addedScars := [] }

/-- Sweep loop of CGroundDecalHandler::DrawScars, lines 511-524: at index
i, remove the scar when its lifeTime is strictly below the current frame
number (and retry the same index, which now holds the swapped-in back
element), else advance.  `fuel` bounds the iterations: every iteration
decreases (live length - i) by exactly one (keep: i+1; remove: length-1),
so the entry length of the used list is sufficient fuel. -/
def sweepScars (frameNum : Int) : Nat → GDState → Nat → GDState
  | 0, st, _ => st
  | fuel + 1, st, i =>
    if h : i < st.usedScarIDs.length then
      let sid := st.usedScarIDs.get ⟨i, h⟩
      if (st.scars sid).lifeTime < frameNum then
        sweepScars frameNum fuel (RemoveScar st sid) i
      else
        sweepScars frameNum fuel st (i + 1)
    else st

/-- CGroundDecalHandler::DrawScars, lines 509-525 (the drawing of
surviving scars is render-only and not modelled). -/
def DrawScars (st : GDState) (frameNum : Int) : GDState :=
  sweepScars frameNum st.usedScarIDs.length st 0

/-- CGroundDecalHandler::GetScarID, lines 758-763: return -1 when the
free list is empty, else pop the back id.  (The method is declared const
but mutates the file-static freeScarIDs vector; the pair returns the
id together with the updated free list.) -/
def GetScarID (free : List Int) : Int × List Int :=
  if free.isEmpty then (-1, free)
  else VectorBackPop free

/-- CGroundDecalHandler::AddExplosion, lines 686-716, from the GetScarID
call on.  The float pipeline before it (altitude gates and damage/radius
falloff, lines 662-684) computes only local values and performs no state
mutation, so it is abstracted into mkScar, the record the code stores
into the free slot (lines 694-713; claims about the stored rectangle use
scarRect* below).  When the id is -1 the function returns before touching
the scar table, the field or the pending list (lines 690-691). -/
def AddExplosion (st : GDState) (mkScar : Int → Scar) : GDState :=
  let idFree := GetScarID st.freeScarIDs
  if idFree.1 = -1 then { st with freeScarIDs := idFree.2 }
  else
    { st with
      freeScarIDs := idFree.2
      scars := setScar st.scars idFree.1 (mkScar idFree.1)
      addedScars := st.addedScars ++ [idFree.1] }

/-- AddExplosion line 706, over exact rationals: the stored x1 is
int(max(0.0f, (pos.x - radius) / (SQUARE_SIZE * 2))) with SQUARE_SIZE = 8.
The C++ cast to int truncates toward zero; the argument is nonnegative
after the max, so truncation is the floor. -/
def scarRectX1 (px radius : ℚ) : Int := ⌊max 0 ((px - radius) / 16)⌋

/-- AddExplosion line 707: the stored y1, from pos.z. -/
def scarRectY1 (pz radius : ℚ) : Int := ⌊max 0 ((pz - radius) / 16)⌋

/-- AddExplosion line 708: the stored x2 is
int(min(float(hmapx - 1), (pos.x + radius) / (SQUARE_SIZE * 2) + 1)),
with hmapx = mapx / 2; both min arguments are nonnegative under the
theorem's hypotheses, so truncation is the floor. -/
def scarRectX2 (hmapx : Int) (px radius : ℚ) : Int :=
  ⌊min ((hmapx : ℚ) - 1) ((px + radius) / 16 + 1)⌋

/-- AddExplosion line 709: the stored y2, from pos.z and hmapy. -/
def scarRectY2 (hmapy : Int) (pz radius : ℚ) : Int :=
  ⌊min ((hmapy : ℚ) - 1) ((pz + radius) / 16 + 1)⌋

/-- Concrete scar for the C10 witness: the rectangle AddExplosion stores
for an explosion at (100, 50) with radius 10 on a 64x64 map. -/
def c10scar : Scar :=
  { Scar.reset with x1 := 5, y1 := 2, x2 := 7, y2 := 4 }

/-- A concrete live scar record (id 0) occupying the single cell of the
witness state. -/
def exScar0 : Scar :=
  { id := 0, creationTime := 0, lifeTime := 5, x1 := 0, y1 := 0, x2 := 16,
    y2 := 16, basesize := 256, overdrawn := 0, lastTest := 0 }

/-- A concrete well-formed state (one used scar, one non-trivial free
list, a 1x1 spatial index) shared by the witnesses of the pass and
removal theorems. -/
def exState : GDState :=
  { scars := fun j => if j = 0 then exScar0 else Scar.reset
    freeScarIDs := [1, 2]
    usedScarIDs := [0]
    addedScars := []
    scarField := [[0]]
    scarFieldX := 1
    scarFieldY := 1
    lastScarOverlapTest := 0
    maxScarOverlapSize := 2
    events := [] }

/-- The C1 witness state: exState with the eviction threshold lowered to
0, so the single full-overlap accumulation (ratio 1) evicts scar 0. -/
def c1state : GDState :=
  { exState with maxScarOverlapSize := 0 }

/-- The concrete new scar inserted in the pass-theorem witnesses. -/
def exNewScar : Scar :=
  { id := 1, creationTime := 0, lifeTime := 10, x1 := 0, y1 := 0, x2 := 16,
    y2 := 16, basesize := 256, overdrawn := 0, lastTest := 0 }

/-- A concrete state with an exhausted free list for the C7 witness. -/
def c7state : GDState :=
  { scars := fun _ => Scar.reset
    freeScarIDs := []
    usedScarIDs := [0]
    addedScars := []
    scarField := [[0]]
    scarFieldX := 1
    scarFieldY := 1
    lastScarOverlapTest := 3
    maxScarOverlapSize := 2
    events := [] }

/-- Allocation bookkeeping invariant on the scar table, the part not
mentioning the pending list: the free and used id lists are duplicate-free
and disjoint; every used slot's record carries its own id (AddExplosion
line 697, so that RemoveScar, which erases `scar.id`, frees the right
slot); every id in a spatial-index cell is a used id whose record's
rectangle covers that cell (spec section 3: "a scar occupies spatial-index
cells only while allocated") and every cell is duplicate-free (cells are
only extended through VectorInsertUnique, line 499). -/
def InvCore (st : GDState) : Prop :=
  st.freeScarIDs.Nodup ∧
  st.usedScarIDs.Nodup ∧
  (∀ i ∈ st.freeScarIDs, i ∉ st.usedScarIDs) ∧
  (∀ i ∈ st.usedScarIDs, (st.scars i).id = i) ∧
  (∀ j a : Int, a ∈ getCell st.scarField j → a ∈ st.usedScarIDs) ∧
  (∀ j : Int, (getCell st.scarField j).Nodup) ∧
  (∀ j a : Int, a ∈ getCell st.scarField j →
    j ∈ scarCellIndices st.scarFieldX st.scarFieldY (st.scars a))

/-- The full handler invariant: InvCore plus the bookkeeping of the
pending-insert list addedScars (ids popped from the free list by
AddExplosion but not yet committed by AddScars): pending ids are
duplicate-free, neither used nor free, and their records carry their own
id. -/
def Inv (st : GDState) : Prop :=
  InvCore st ∧
  st.addedScars.Nodup ∧
  (∀ i ∈ st.addedScars, i ∉ st.usedScarIDs) ∧
  (∀ i ∈ st.addedScars, i ∉ st.freeScarIDs) ∧
  (∀ i ∈ st.addedScars, (st.scars i).id = i)

/-- One externally triggered operation of the handler, as the spec's
"allocate/free sequences": an explosion event (AddExplosion; mkScar
abstracts the stored record of lines 694-713, whose line 697 `s.id = id`
makes the record carry its slot id), the per-frame commit of pending
scars (AddScars, which runs the eviction pass), and the per-frame expiry
sweep of DrawScars. -/
inductive GDStep : GDState → GDState → Prop where
  | explosion (st : GDState) (mkScar : Int → Scar)
      (hmk : ∀ i : Int, (mkScar i).id = i) :
      GDStep st (AddExplosion st mkScar)
  | commit (st : GDState) : GDStep st (AddScars st)
  | draw (st : GDState) (frameNum : Int) : GDStep st (DrawScars st frameNum)

/-- One entry of objectDecalTypes (line 99): the lowercase name key; the
texture handle and the decal list are render-only and not modelled. -/
structure SolidObjectDecalType where
  name : String
deriving DecidableEq, Repr

/-- CGroundDecalHandler::GetSolidObjectDecalType, lines 840-866.
drawDecals models GetDrawDecals(); lowerOf models StringToLower
(System/StringUtil.h, an external string utility); loadOk models
CBitmap::Load succeeding on the given path (external asset loader).
Returns the pair (return value, updated registry). -/
def GetSolidObjectDecalType (drawDecals : Bool) (lowerOf : String → String)
    (loadOk : String → Bool) (objectDecalTypes : List SolidObjectDecalType)
    (name : String) : Int × List SolidObjectDecalType :=
  if ¬drawDecals then (-2, objectDecalTypes)
  else
    let lowerName := lowerOf name
    let fullName := "unittextures/" ++ lowerName
    match objectDecalTypes.findIdx? (fun dt => dt.name == lowerName) with
    | some i => ((i : Int), objectDecalTypes)
    | none =>
      if ¬loadOk fullName then (-2, objectDecalTypes)
      else ((objectDecalTypes.length : Int),
        objectDecalTypes ++ [{ name := lowerName }])

/-- A found index is within bounds. -/
theorem findIdx?_lt_length {p : Int → Bool} :
    ∀ {v : List Int} {k : Nat}, v.findIdx? p = some k → k < v.length := by
  intro v
  induction v with
  | nil => intro k h; simp [List.findIdx?_nil] at h
  | cons a t ih =>
    intro k h
    rw [List.findIdx?_cons] at h
    by_cases hp : p a
    · simp [hp] at h
      subst h
      simp
    · simp [hp, List.findIdx?_succ] at h
      obtain ⟨j, hj, rfl⟩ := h
      have := ih hj
      simp
      omega

/-- VectorErase on the empty vector. -/
theorem VectorErase_nil (e : Int) : VectorErase [] e = [] := rfl

/-- Recursive unfolding of VectorErase: at a head equal to the target the
back element is swapped into the head slot and the back is popped;
otherwise the head is kept and the tail is erased. -/
theorem VectorErase_cons (a e : Int) (t : List Int) :
    VectorErase (a :: t) e =
      if a = e then (((a :: t).getLastD 0) :: t).dropLast
      else a :: VectorErase t e := by
  by_cases hae : a = e
  · simp only [VectorErase, List.findIdx?_cons, if_pos hae, decide_eq_true_eq,
      if_pos hae]
    simp [hae]
  · simp only [VectorErase, List.findIdx?_cons, decide_eq_true_eq, if_neg hae,
      List.findIdx?_succ]
    cases hfi : t.findIdx? (fun x => x = e) with
    | none => simp [hfi]
    | some k =>
      have hk : k < t.length := findIdx?_lt_length hfi
      have ht : t ≠ [] := by
        intro h; subst h; simp at hk
      simp only [hfi]
      show ((a :: t).set (k + 1) ((a :: t).getLastD 0)).dropLast =
        a :: (t.set k (t.getLastD 0)).dropLast
      have hset : (a :: t).set (k + 1) ((a :: t).getLastD 0) =
          a :: t.set k (t.getLastD 0) := by
        have : (a :: t).getLastD 0 = t.getLastD 0 := by
          cases t with
          | nil => exact absurd rfl ht
          | cons b u => simp [List.getLastD]
        rw [this]
        rfl
      rw [hset]
      have hne : t.set k (t.getLastD 0) ≠ [] :=
        List.length_pos.mp (by rw [List.length_set]; omega)
      rw [List.dropLast_cons_of_ne_nil hne]

/-- The defaulted last element of a nonempty list is a member. -/
theorem getLastD_mem_cons (a : Int) (t : List Int) :
    (a :: t).getLastD 0 ∈ a :: t := by
  have h : (a :: t).getLastD 0 = (a :: t).getLast (by simp) := by
    rw [List.getLastD_eq_getLast?, List.getLast?_eq_getLast _ (by simp),
      Option.getD_some]
  rw [h]
  exact List.getLast_mem _

/-- A nonempty list is its dropLast followed by its last element. -/
theorem dropLast_decomp (t : List Int) (ht : t ≠ []) :
    t.dropLast ++ [t.getLastD 0] = t := by
  induction t with
  | nil => exact absurd rfl ht
  | cons b u ih =>
    cases u with
    | nil => simp [List.getLastD]
    | cons c w =>
      rw [List.dropLast_cons_of_ne_nil (by simp)]
      have hg : (b :: c :: w).getLastD 0 = (c :: w).getLastD 0 := by
        simp [List.getLastD]
      rw [hg, List.cons_append, ih (by simp)]

/-- VectorErase only removes: members of the result are members of the
input. -/
theorem mem_of_mem_VectorErase {v : List Int} {e a : Int}
    (h : a ∈ VectorErase v e) : a ∈ v := by
  induction v with
  | nil => simpa [VectorErase_nil] using h
  | cons b t ih =>
    rw [VectorErase_cons] at h
    by_cases hbe : b = e
    · rw [if_pos hbe] at h
      have h2 := (List.dropLast_sublist (((b :: t).getLastD 0) :: t)).mem h
      rcases List.mem_cons.mp h2 with h3 | h3
      · rw [h3]
        exact getLastD_mem_cons b t
      · exact List.mem_cons_of_mem b h3
    · rw [if_neg hbe] at h
      rcases List.mem_cons.mp h with h3 | h3
      · exact h3 ▸ List.mem_cons_self b t
      · exact List.mem_cons_of_mem b (ih h3)

/-- Erasing an absent element is a no-op (the C++ find reaches end()). -/
theorem VectorErase_of_not_mem {v : List Int} {e : Int} (h : e ∉ v) :
    VectorErase v e = v := by
  induction v with
  | nil => rfl
  | cons b t ih =>
    rw [VectorErase_cons]
    have hbe : b ≠ e := fun hc => h (hc ▸ List.mem_cons_self b t)
    rw [if_neg hbe, ih (fun hc => h (List.mem_cons_of_mem b hc))]

/-- VectorErase never lengthens the vector. -/
theorem VectorErase_length_le (v : List Int) (e : Int) :
    (VectorErase v e).length ≤ v.length := by
  induction v with
  | nil => simp [VectorErase_nil]
  | cons b t ih =>
    rw [VectorErase_cons]
    by_cases hbe : b = e
    · rw [if_pos hbe]
      simp
    · rw [if_neg hbe]
      simp only [List.length_cons]
      omega

/-- Erasing a present element removes exactly one slot. -/
theorem length_VectorErase_of_mem {v : List Int} {e : Int} (h : e ∈ v) :
    (VectorErase v e).length + 1 = v.length := by
  induction v with
  | nil => simp at h
  | cons b t ih =>
    rw [VectorErase_cons]
    by_cases hbe : b = e
    · rw [if_pos hbe]
      simp
    · rw [if_neg hbe]
      have het : e ∈ t := by
        rcases List.mem_cons.mp h with h3 | h3
        · exact absurd h3.symm hbe
        · exact h3
      simp only [List.length_cons]
      rw [← ih het]

/-- On a duplicate-free vector, erasing an element removes it
completely. -/
theorem not_mem_VectorErase_self {v : List Int} {e : Int} (hnd : v.Nodup) :
    e ∉ VectorErase v e := by
  induction v with
  | nil => simp [VectorErase_nil]
  | cons b t ih =>
    have hbt : b ∉ t := (List.nodup_cons.mp hnd).1
    have hndt : t.Nodup := (List.nodup_cons.mp hnd).2
    rw [VectorErase_cons]
    by_cases hbe : b = e
    · rw [if_pos hbe]
      subst hbe
      cases t with
      | nil => simp
      | cons c u =>
        intro hmem
        have h2 := (List.dropLast_sublist _).mem hmem
        have hBmem : (b :: c :: u).getLastD 0 ∈ c :: u := by
          have h4 := getLastD_mem_cons c u
          simpa [List.getLastD] using h4
        rcases List.mem_cons.mp h2 with h3 | h3
        · exact hbt (h3 ▸ hBmem)
        · exact hbt h3
    · rw [if_neg hbe]
      intro hmem
      rcases List.mem_cons.mp hmem with h3 | h3
      · exact hbe h3.symm
      · exact ih hndt h3

/-- VectorErase preserves freedom from duplicates. -/
theorem nodup_VectorErase {v : List Int} (e : Int) (hnd : v.Nodup) :
    (VectorErase v e).Nodup := by
  induction v with
  | nil => simp [VectorErase_nil]
  | cons b t ih =>
    have hbt : b ∉ t := (List.nodup_cons.mp hnd).1
    have hndt : t.Nodup := (List.nodup_cons.mp hnd).2
    rw [VectorErase_cons]
    by_cases hbe : b = e
    · rw [if_pos hbe]
      cases t with
      | nil => simp
      | cons c u =>
        have hB : (b :: c :: u).getLastD 0 = (c :: u).getLastD 0 := by
          simp [List.getLastD]
        rw [List.dropLast_cons_of_ne_nil (by simp), hB]
        have hdec := dropLast_decomp (c :: u) (by simp)
        have hndu : ((c :: u).dropLast ++ [(c :: u).getLastD 0]).Nodup := by
          rw [hdec]; exact hndt
        have hnotin : (c :: u).getLastD 0 ∉ (c :: u).dropLast := by
          have := List.disjoint_of_nodup_append hndu
          intro hc
          exact this hc (by simp)
        exact List.nodup_cons.mpr ⟨hnotin,
          hndt.sublist (List.dropLast_sublist (c :: u))⟩
    · rw [if_neg hbe]
      refine List.nodup_cons.mpr ⟨?_, ih hndt⟩
      intro hc
      exact hbt (mem_of_mem_VectorErase hc)

/-- VectorErase keeps every member other than the erased one. -/
theorem mem_VectorErase_of_ne {v : List Int} {e a : Int}
    (ha : a ∈ v) (hne : a ≠ e) : a ∈ VectorErase v e := by
  induction v with
  | nil => simp at ha
  | cons b t ih =>
    rw [VectorErase_cons]
    by_cases hbe : b = e
    · rw [if_pos hbe]
      subst hbe
      have hat : a ∈ t := by
        rcases List.mem_cons.mp ha with h3 | h3
        · exact absurd h3 hne
        · exact h3
      have htne : t ≠ [] := fun hc => by subst hc; simp at hat
      cases t with
      | nil => exact absurd rfl htne
      | cons c u =>
        have hB : (b :: c :: u).getLastD 0 = (c :: u).getLastD 0 := by
          simp [List.getLastD]
        rw [List.dropLast_cons_of_ne_nil (by simp), hB]
        have hdec := dropLast_decomp (c :: u) (by simp)
        rw [← hdec] at hat
        rcases List.mem_append.mp hat with h3 | h3
        · exact List.mem_cons_of_mem _ h3
        · simp only [List.mem_singleton] at h3
          exact h3 ▸ List.mem_cons_self _ _
    · rw [if_neg hbe]
      rcases List.mem_cons.mp ha with h3 | h3
      · exact h3 ▸ List.mem_cons_self b _
      · exact List.mem_cons_of_mem b (ih h3)

/-- Membership in VectorInsertUnique. -/
theorem mem_VectorInsertUnique {v : List Int} {e a : Int} :
    a ∈ VectorInsertUnique v e ↔ a ∈ v ∨ a = e := by
  unfold VectorInsertUnique
  split_ifs with h
  · constructor
    · exact Or.inl
    · rintro (h2 | rfl)
      · exact h2
      · exact h
  · simp

/-- VectorInsertUnique preserves freedom from duplicates. -/
theorem nodup_VectorInsertUnique {v : List Int} (e : Int) (hnd : v.Nodup) :
    (VectorInsertUnique v e).Nodup := by
  unfold VectorInsertUnique
  split_ifs with h
  · exact hnd
  · rw [List.nodup_append]
    exact ⟨hnd, List.nodup_singleton e,
      fun a ha hae => h ((List.mem_singleton.mp hae) ▸ ha)⟩

/-- Inserting an absent element yields exactly one occurrence. -/
theorem count_VectorInsertUnique_self {v : List Int} {e : Int} (h : e ∉ v) :
    (VectorInsertUnique v e).count e = 1 := by
  unfold VectorInsertUnique
  rw [if_neg h, List.count_append, List.count_eq_zero.mpr h]
  simp

/-- In a duplicate-free list the last element does not recur earlier. -/
theorem getLastD_not_mem_dropLast {v : List Int} (hnd : v.Nodup)
    (hne : v ≠ []) : v.getLastD 0 ∉ v.dropLast := by
  have hdec := dropLast_decomp v hne
  have h2 : (v.dropLast ++ [v.getLastD 0]).Nodup := by
    rw [hdec]; exact hnd
  intro hc
  exact List.disjoint_of_nodup_append h2 hc (by simp)

/-- Reading the written slot of the scars array. -/
theorem setScar_self (f : Int → Scar) (i : Int) (s : Scar) :
    setScar f i s i = s := by
  simp [setScar]

/-- Reading another slot of the scars array. -/
theorem setScar_ne (f : Int → Scar) (i : Int) (s : Scar) {j : Int}
    (h : j ≠ i) : setScar f i s j = f j := by
  simp [setScar, h]

/-- Writing a list slot does not change the value read at a different
index. -/
theorem getD_set_ne {α : Type} (l : List α) (m n : Nat) (a d : α)
    (h : m ≠ n) : (l.set m a).getD n d = l.getD n d := by
  rw [List.getD_eq_getElem?_getD, List.getD_eq_getElem?_getD,
    List.getElem?_set_ne h]

/-- Reading back an in-range written list slot. -/
theorem getD_set_self {α : Type} (l : List α) (m : Nat) (a d : α)
    (h : m < l.length) : (l.set m a).getD m d = a := by
  rw [List.getD_eq_getElem?_getD, List.getElem?_set_self]
  · rfl
  · exact h

/-- setCell preserves the number of cells. -/
theorem length_setCell (f : List (List Int)) (k : Int) (q : List Int) :
    (setCell f k q).length = f.length := by
  unfold setCell
  split_ifs <;> simp

/-- Negative flat indices read as the empty cell. -/
theorem getCell_neg (f : List (List Int)) {k : Int} (h : k < 0) :
    getCell f k = [] := by
  unfold getCell
  rw [if_neg (by omega)]

/-- Reading a different cell after a cell write. -/
theorem getCell_setCell_ne (f : List (List Int)) (k : Int) (q : List Int)
    {j : Int} (h : j ≠ k) : getCell (setCell f k q) j = getCell f j := by
  unfold getCell setCell
  by_cases hk : 0 ≤ k
  · rw [if_pos hk]
    by_cases hj : 0 ≤ j
    · rw [if_pos hj, if_pos hj]
      exact getD_set_ne f k.toNat j.toNat q [] (by omega)
    · rw [if_neg hj, if_neg hj]
  · rw [if_neg hk]

/-- Reading back an in-range written cell. -/
theorem getCell_setCell_self (f : List (List Int)) (k : Int) (q : List Int)
    (hk : 0 ≤ k) (hlen : k.toNat < f.length) :
    getCell (setCell f k q) k = q := by
  unfold getCell setCell
  rw [if_pos hk, if_pos hk]
  exact getD_set_self f k.toNat q [] hlen

/-- A cell read after a cell write is the old cell, or (at the written,
in-range index) the written value; an out-of-range write target reads as
the empty cell both before and after. -/
theorem getCell_setCell_cases (f : List (List Int)) (k : Int)
    (q : List Int) (j : Int) :
    (getCell (setCell f k q) j = getCell f j ∧
      (j = k → getCell f j = [])) ∨
    (j = k ∧ getCell (setCell f k q) j = q) := by
  by_cases hjk : j = k
  · subst hjk
    by_cases hk : 0 ≤ j
    · by_cases hlen : j.toNat < f.length
      · exact Or.inr ⟨rfl, getCell_setCell_self f j q hk hlen⟩
      · left
        constructor
        · simp only [getCell, setCell, if_pos hk]
          rw [List.getD_eq_default _ _ (by rw [List.length_set]; omega),
            List.getD_eq_default _ _ (by omega)]
        · intro _
          simp only [getCell, if_pos hk]
          rw [List.getD_eq_default _ _ (by omega)]
    · left
      refine ⟨?_, fun _ => getCell_neg f (by omega)⟩
      simp only [getCell, setCell, if_neg hk]
  · exact Or.inl ⟨getCell_setCell_ne f k q hjk, fun hc => absurd hc hjk⟩

/-- Every nonempty cell read comes from an actual cell of the field
list. -/
theorem exists_mem_of_mem_getCell {f : List (List Int)} {j : Int} {a : Int}
    (h : a ∈ getCell f j) : ∃ q ∈ f, a ∈ q := by
  unfold getCell at h
  by_cases hj : 0 ≤ j
  · rw [if_pos hj] at h
    by_cases hlen : j.toNat < f.length
    · refine ⟨f.getD j.toNat [], ?_, h⟩
      rw [List.getD_eq_get _ _ hlen]
      exact List.get_mem f j.toNat hlen
    · rw [List.getD_eq_default _ _ (by omega)] at h
      exact absurd h (List.not_mem_nil a)
  · rw [if_neg hj] at h
    exact absurd h (List.not_mem_nil a)

/-- Conversely, every cell of the field list is read by its index. -/
theorem getCell_of_mem {f : List (List Int)} {q : List Int} (h : q ∈ f) :
    ∃ m : Nat, m < f.length ∧ getCell f (m : Int) = q := by
  obtain ⟨⟨m, hm⟩, rfl⟩ := List.mem_iff_get.mp h
  refine ⟨m, hm, ?_⟩
  unfold getCell
  rw [if_pos (by positivity), Int.toNat_ofNat, List.getD_eq_get _ _ hm]

/-- The erase fold of RemoveScar preserves the number of cells. -/
theorem eraseFold_length (ks : List Int) (f : List (List Int)) (e : Int) :
    (ks.foldl (fun g k => setCell g k (VectorErase (getCell g k) e))
      f).length = f.length := by
  induction ks generalizing f with
  | nil => rfl
  | cons k ks ih =>
    rw [List.foldl_cons, ih, length_setCell]

/-- The erase fold of RemoveScar only removes cell members. -/
theorem eraseFold_subset (ks : List Int) (e : Int) :
    ∀ (f : List (List Int)) {j a : Int},
      a ∈ getCell (ks.foldl
        (fun g k => setCell g k (VectorErase (getCell g k) e)) f) j →
      a ∈ getCell f j := by
  induction ks with
  | nil => intro f j a h; exact h
  | cons k ks ih =>
    intro f j a h
    rw [List.foldl_cons] at h
    have h2 := ih _ h
    rcases getCell_setCell_cases f k (VectorErase (getCell f k) e) j with
      ⟨heq, _⟩ | ⟨rfl, heq⟩
    · rwa [heq] at h2
    · rw [heq] at h2
      exact mem_of_mem_VectorErase h2

/-- The erase fold of RemoveScar preserves duplicate-freedom of every
cell. -/
theorem eraseFold_nodup (ks : List Int) (e : Int) :
    ∀ (f : List (List Int)), (∀ j : Int, (getCell f j).Nodup) →
      ∀ j : Int, (getCell (ks.foldl
        (fun g k => setCell g k (VectorErase (getCell g k) e)) f) j).Nodup := by
  induction ks with
  | nil => intro f hnd j; exact hnd j
  | cons k ks ih =>
    intro f hnd j
    rw [List.foldl_cons]
    refine ih _ ?_ j
    intro m
    rcases getCell_setCell_cases f k (VectorErase (getCell f k) e) m with
      ⟨heq, _⟩ | ⟨rfl, heq⟩
    · rw [heq]; exact hnd m
    · rw [heq]; exact nodup_VectorErase e (hnd m)

/-- After the erase fold of RemoveScar, the erased id is absent from
every visited cell (given duplicate-free cells). -/
theorem eraseFold_removes (ks : List Int) (e : Int) :
    ∀ (f : List (List Int)), (∀ j : Int, (getCell f j).Nodup) →
      ∀ j : Int, j ∈ ks →
      e ∉ getCell (ks.foldl
        (fun g k => setCell g k (VectorErase (getCell g k) e)) f) j := by
  induction ks with
  | nil => intro f _ j hj; simp at hj
  | cons k ks ih =>
    intro f hnd j hj
    rw [List.foldl_cons]
    have hnd1 : ∀ m : Int,
        (getCell (setCell f k (VectorErase (getCell f k) e) ) m).Nodup := by
      intro m
      rcases getCell_setCell_cases f k (VectorErase (getCell f k) e) m with
        ⟨heq, _⟩ | ⟨rfl, heq⟩
      · rw [heq]; exact hnd m
      · rw [heq]; exact nodup_VectorErase e (hnd m)
    rcases List.mem_cons.mp hj with rfl | hj2
    · intro hc
      have h2 := eraseFold_subset ks e _ hc
      rcases getCell_setCell_cases f j (VectorErase (getCell f j) e) j with
        ⟨heq, hemp⟩ | ⟨_, heq⟩
      · rw [heq, hemp rfl] at h2
        exact absurd h2 (List.not_mem_nil e)
      · rw [heq] at h2
        exact not_mem_VectorErase_self (hnd j) h2
    · exact ih _ hnd1 j hj2

/-- The insert fold of AddScars preserves the number of cells. -/
theorem insertFold_length (ks : List Int) (f : List (List Int)) (e : Int) :
    (ks.foldl (fun g k => setCell g k (VectorInsertUnique (getCell g k) e))
      f).length = f.length := by
  induction ks generalizing f with
  | nil => rfl
  | cons k ks ih =>
    rw [List.foldl_cons, ih, length_setCell]

/-- Members after the insert fold of AddScars: either an old member, or
the inserted id at a visited cell. -/
theorem insertFold_mem (ks : List Int) (e : Int) :
    ∀ (f : List (List Int)) {j a : Int},
      a ∈ getCell (ks.foldl
        (fun g k => setCell g k (VectorInsertUnique (getCell g k) e)) f) j →
      a ∈ getCell f j ∨ (a = e ∧ j ∈ ks) := by
  induction ks with
  | nil => intro f j a h; exact Or.inl h
  | cons k ks ih =>
    intro f j a h
    rw [List.foldl_cons] at h
    rcases ih _ h with h2 | ⟨rfl, h2⟩
    · rcases getCell_setCell_cases f k (VectorInsertUnique (getCell f k) e)
        j with ⟨heq, _⟩ | ⟨rfl, heq⟩
      · rw [heq] at h2
        exact Or.inl h2
      · rw [heq] at h2
        rcases mem_VectorInsertUnique.mp h2 with h3 | rfl
        · exact Or.inl h3
        · exact Or.inr ⟨rfl, List.mem_cons_self _ _⟩
    · exact Or.inr ⟨rfl, List.mem_cons_of_mem _ h2⟩

/-- The insert fold of AddScars keeps every old cell member. -/
theorem insertFold_mem_old (ks : List Int) (e : Int) :
    ∀ (f : List (List Int)) {j a : Int}, a ∈ getCell f j →
      a ∈ getCell (ks.foldl
        (fun g k => setCell g k (VectorInsertUnique (getCell g k) e)) f) j := by
  induction ks with
  | nil => intro f j a h; exact h
  | cons k ks ih =>
    intro f j a h
    rw [List.foldl_cons]
    refine ih _ ?_
    rcases getCell_setCell_cases f k (VectorInsertUnique (getCell f k) e) j
      with ⟨heq, _⟩ | ⟨rfl, heq⟩
    · rwa [heq]
    · rw [heq]
      exact mem_VectorInsertUnique.mpr (Or.inl h)

/-- The insert fold of AddScars preserves duplicate-freedom of every
cell. -/
theorem insertFold_nodup (ks : List Int) (e : Int) :
    ∀ (f : List (List Int)), (∀ j : Int, (getCell f j).Nodup) →
      ∀ j : Int, (getCell (ks.foldl
        (fun g k => setCell g k (VectorInsertUnique (getCell g k) e)) f)
        j).Nodup := by
  induction ks with
  | nil => intro f hnd j; exact hnd j
  | cons k ks ih =>
    intro f hnd j
    rw [List.foldl_cons]
    refine ih _ ?_ j
    intro m
    rcases getCell_setCell_cases f k (VectorInsertUnique (getCell f k) e) m
      with ⟨heq, _⟩ | ⟨rfl, heq⟩
    · rw [heq]; exact hnd m
    · rw [heq]; exact nodup_VectorInsertUnique e (hnd m)

/-- RemoveScar erases the record's id from the used list. -/
theorem RemoveScar_usedScarIDs (st : GDState) (sid : Int) :
    (RemoveScar st sid).usedScarIDs =
      VectorErase st.usedScarIDs (st.scars sid).id := rfl

/-- RemoveScar recycles the record's id into the free list. -/
theorem RemoveScar_freeScarIDs (st : GDState) (sid : Int) :
    (RemoveScar st sid).freeScarIDs =
      VectorInsertUnique st.freeScarIDs (st.scars sid).id := rfl

/-- RemoveScar resets the record at the given slot. -/
theorem RemoveScar_scars (st : GDState) (sid : Int) :
    (RemoveScar st sid).scars = setScar st.scars sid Scar.reset := rfl

/-- RemoveScar appends exactly one removal event. -/
theorem RemoveScar_events (st : GDState) (sid : Int) :
    (RemoveScar st sid).events = st.events ++
      [GDEvent.removed (st.scars sid).id (st.scars sid).lifeTime
        (st.scars sid).overdrawn] := rfl

/-- RemoveScar leaves the pending-insert list alone. -/
theorem RemoveScar_addedScars (st : GDState) (sid : Int) :
    (RemoveScar st sid).addedScars = st.addedScars := rfl

/-- RemoveScar leaves the pass counter alone. -/
theorem RemoveScar_lastTest (st : GDState) (sid : Int) :
    (RemoveScar st sid).lastScarOverlapTest = st.lastScarOverlapTest := rfl

/-- RemoveScar leaves the threshold alone. -/
theorem RemoveScar_maxO (st : GDState) (sid : Int) :
    (RemoveScar st sid).maxScarOverlapSize = st.maxScarOverlapSize := rfl

/-- RemoveScar leaves the field dimensions alone. -/
theorem RemoveScar_fieldX (st : GDState) (sid : Int) :
    (RemoveScar st sid).scarFieldX = st.scarFieldX := rfl

/-- RemoveScar leaves the field dimensions alone (y). -/
theorem RemoveScar_fieldY (st : GDState) (sid : Int) :
    (RemoveScar st sid).scarFieldY = st.scarFieldY := rfl

/-- RemoveScar's spatial-index update is the erase fold over the record's
cells. -/
theorem RemoveScar_scarField (st : GDState) (sid : Int) :
    (RemoveScar st sid).scarField =
      (scarCellIndices st.scarFieldX st.scarFieldY (st.scars sid)).foldl
        (fun f k => setCell f k (VectorErase (getCell f k)
          (st.scars sid).id)) st.scarField := rfl

/-- processEntry skips an entry already stamped with the current pass
counter (line 797). -/
theorem processEntry_eq_of_stamped {passCtr maxO : Int} {scar : Scar}
    {st : GDState} {tid : Int}
    (h : passCtr = (st.scars tid).lastTest) :
    processEntry passCtr maxO scar st tid = st := by
  simp only [processEntry]
  rw [if_pos h]

/-- processEntry skips a candidate with strictly larger lifeTime
(line 799). -/
theorem processEntry_eq_of_lifeTime {passCtr maxO : Int} {scar : Scar}
    {st : GDState} {tid : Int}
    (hA : ¬passCtr = (st.scars tid).lastTest)
    (hB : scar.lifeTime < (st.scars tid).lifeTime) :
    processEntry passCtr maxO scar st tid = st := by
  simp only [processEntry]
  rw [if_neg hA, if_pos hB]

/-- processEntry only stamps when the overlap is zero or the basesize is
zero (line 807). -/
theorem processEntry_eq_of_guard {passCtr maxO : Int} {scar : Scar}
    {st : GDState} {tid : Int}
    (hA : ¬passCtr = (st.scars tid).lastTest)
    (hB : ¬scar.lifeTime < (st.scars tid).lifeTime)
    (hC : ScarOverlapSize scar { st.scars tid with lastTest := passCtr } = 0 ∨
      (st.scars tid).basesize = 0) :
    processEntry passCtr maxO scar st tid = stampState passCtr st tid := by
  simp only [processEntry]
  rw [if_neg hA, if_neg hB, if_pos hC]
  rfl

/-- processEntry stamps and accumulates, keeping the candidate, when the
accumulated counter stays at or below the threshold (line 810). -/
theorem processEntry_eq_of_accum {passCtr maxO : Int} {scar : Scar}
    {st : GDState} {tid : Int}
    (hA : ¬passCtr = (st.scars tid).lastTest)
    (hB : ¬scar.lifeTime < (st.scars tid).lifeTime)
    (hC : ¬(ScarOverlapSize scar { st.scars tid with lastTest := passCtr } = 0 ∨
      (st.scars tid).basesize = 0))
    (hD : (st.scars tid).overdrawn +
      Int.tdiv (ScarOverlapSize scar { st.scars tid with lastTest := passCtr })
        (st.scars tid).basesize ≤ maxO) :
    processEntry passCtr maxO scar st tid = accumState passCtr scar st tid := by
  simp only [processEntry]
  rw [if_neg hA, if_neg hB, if_neg hC, if_pos hD]
  rfl

/-- processEntry stamps, accumulates and removes the candidate when the
accumulated counter strictly exceeds the threshold (line 813). -/
theorem processEntry_eq_of_remove {passCtr maxO : Int} {scar : Scar}
    {st : GDState} {tid : Int}
    (hA : ¬passCtr = (st.scars tid).lastTest)
    (hB : ¬scar.lifeTime < (st.scars tid).lifeTime)
    (hC : ¬(ScarOverlapSize scar { st.scars tid with lastTest := passCtr } = 0 ∨
      (st.scars tid).basesize = 0))
    (hD : ¬(st.scars tid).overdrawn +
      Int.tdiv (ScarOverlapSize scar { st.scars tid with lastTest := passCtr })
        (st.scars tid).basesize ≤ maxO) :
    processEntry passCtr maxO scar st tid =
      RemoveScar (accumState passCtr scar st tid) tid := by
  simp only [processEntry]
  rw [if_neg hA, if_neg hB, if_neg hC, if_neg hD]
  rfl

/-- processEntry leaves the threshold alone. -/
theorem processEntry_maxO (passCtr maxO : Int) (scar : Scar) (st : GDState)
    (tid : Int) :
    (processEntry passCtr maxO scar st tid).maxScarOverlapSize =
      st.maxScarOverlapSize := by
  simp only [processEntry]
  split_ifs <;> rfl

/-- processEntry leaves the pass counter alone. -/
theorem processEntry_lastTest (passCtr maxO : Int) (scar : Scar)
    (st : GDState) (tid : Int) :
    (processEntry passCtr maxO scar st tid).lastScarOverlapTest =
      st.lastScarOverlapTest := by
  simp only [processEntry]
  split_ifs <;> rfl

/-- A property preserved by every processEntry step on a cell member is
preserved by the whole inner loop. -/
theorem quadLoop_preserve (P : GDState → Prop) (passCtr maxO : Int)
    (scar : Scar) (cell : Int)
    (hstep : ∀ s tid, tid ∈ getCell s.scarField cell → P s →
      P (processEntry passCtr maxO scar s tid)) :
    ∀ (fuel : Nat) (st : GDState) (i : Nat), P st →
      P (quadLoop passCtr maxO scar cell fuel st i) := by
  intro fuel
  induction fuel with
  | zero => intro st i h; exact h
  | succ fuel ih =>
    intro st i h
    rw [quadLoop]
    split
    · exact ih _ _ (hstep st _ (List.get_mem _ _ _) h)
    · exact h

/-- A property preserved by every processEntry step of a pass (with the
pass counter bumped once at entry) is preserved by the whole of
TestScarOverlaps. -/
theorem TestScarOverlaps_preserve (P : GDState → Prop) (st : GDState)
    (scar : Scar)
    (hstep : ∀ s tid, (∃ cell : Int, tid ∈ getCell s.scarField cell) →
      P s → P (processEntry (st.lastScarOverlapTest + 1)
        st.maxScarOverlapSize scar s tid))
    (hinit : P { st with lastScarOverlapTest := st.lastScarOverlapTest + 1 }) :
    P (TestScarOverlaps st scar) := by
  unfold TestScarOverlaps
  have main : ∀ (ks : List Int) (s : GDState),
      P s → s.maxScarOverlapSize = st.maxScarOverlapSize →
      P (ks.foldl (fun s k =>
          quadLoop (st.lastScarOverlapTest + 1) s.maxScarOverlapSize scar k
            (getCell s.scarField k).length s 0) s) := by
    intro ks
    induction ks with
    | nil => intro s h _; exact h
    | cons k ks ih =>
      intro s h hm
      rw [List.foldl_cons]
      have h1 : P (quadLoop (st.lastScarOverlapTest + 1)
          s.maxScarOverlapSize scar k (getCell s.scarField k).length s 0) := by
        rw [hm]
        exact quadLoop_preserve P _ _ scar k
          (fun s' tid hmem hP => hstep s' tid ⟨k, hmem⟩ hP) _ s 0 h
      have h2 : (quadLoop (st.lastScarOverlapTest + 1)
          s.maxScarOverlapSize scar k (getCell s.scarField k).length
          s 0).maxScarOverlapSize = st.maxScarOverlapSize := by
        have := quadLoop_preserve
          (fun s' => s'.maxScarOverlapSize = st.maxScarOverlapSize)
          (st.lastScarOverlapTest + 1) s.maxScarOverlapSize scar k
          (fun s' tid _ hP => (processEntry_maxO _ _ _ _ _).trans hP)
          (getCell s.scarField k).length s 0 hm
        exact this
      exact ih _ h1 h2
  exact main _ _ hinit rfl

/-- Reading the stamped slot of stampState. -/
theorem stampState_scars_self (passCtr : Int) (s : GDState) (tid : Int) :
    (stampState passCtr s tid).scars tid =
      { s.scars tid with lastTest := passCtr } := by
  simp [stampState, setScar]

/-- Reading another slot of stampState. -/
theorem stampState_scars_ne (passCtr : Int) (s : GDState) {tid j : Int}
    (h : j ≠ tid) : (stampState passCtr s tid).scars j = s.scars j := by
  simp [stampState, setScar, h]

/-- Reading the accumulated slot of accumState. -/
theorem accumState_scars_self (passCtr : Int) (scar : Scar) (s : GDState)
    (tid : Int) :
    (accumState passCtr scar s tid).scars tid =
      ({ s.scars tid with
          lastTest := passCtr
          overdrawn := (s.scars tid).overdrawn +
            Int.tdiv (ScarOverlapSize scar
              ({ s.scars tid with lastTest := passCtr }))
              (s.scars tid).basesize }) := by
  simp [accumState, setScar]

/-- Reading another slot of accumState. -/
theorem accumState_scars_ne (passCtr : Int) (scar : Scar) (s : GDState)
    {tid j : Int} (h : j ≠ tid) :
    (accumState passCtr scar s tid).scars j = s.scars j := by
  simp [accumState, setScar, h]

/-- accumCount distributes over append. -/
theorem accumCount_append (l m : List GDEvent) (tid : Int) :
    accumCount (l ++ m) tid = accumCount l tid + accumCount m tid := by
  unfold accumCount
  rw [List.filter_append, List.length_append]

/-- A removal event is never counted as an accumulation. -/
theorem accumCount_removed (a b c tid : Int) :
    accumCount [GDEvent.removed a b c] tid = 0 := rfl

/-- An accumulation onto tid counts once. -/
theorem accumCount_accum_self (d o tid : Int) :
    accumCount [GDEvent.accum tid d o] tid = 1 := by
  simp [accumCount, isAccumOf]

/-- An accumulation onto another id does not count. -/
theorem accumCount_accum_ne {t tid : Int} (h : t ≠ tid) (d o : Int) :
    accumCount [GDEvent.accum t d o] tid = 0 := by
  simp [accumCount, isAccumOf, h]

/-- When the candidate rectangle ends at or before the tester's left edge
(in particular for a reset record tested by a real scar), the first guard
of ScarOverlapSize fires and the overlap is zero. -/
theorem ScarOverlapSize_eq_zero_of_le {s1 s2 : Scar} (h : s2.x2 ≤ s1.x1) :
    ScarOverlapSize s1 s2 = 0 := by
  unfold ScarOverlapSize
  rw [if_pos (Or.inl h)]

/-- C9: in one eviction pass TestScarOverlaps(S), the pass counter
lastScarOverlapTest is incremented exactly once, and overlap area is
accumulated onto each existing scar at most once even when S and the
candidate share several spatial-index cells: a candidate already stamped
with the current pass value is skipped, and a candidate removed earlier in
the pass reads as a reset rectangle with zero overlap.  The hypothesis
0 <= scar.x1 holds for every real scar: AddExplosion clamps x1 below by
zero (line 706). -/
theorem C9_accumulate_once (st : GDState) (scar : Scar)
    (hx : 0 ≤ scar.x1) :
    (TestScarOverlaps st scar).lastScarOverlapTest =
      st.lastScarOverlapTest + 1 ∧
    ∀ tid : Int,
      accumCount ((TestScarOverlaps st scar).events.drop st.events.length)
        tid ≤ 1 := by
  have main := TestScarOverlaps_preserve
    (fun cur => cur.lastScarOverlapTest = st.lastScarOverlapTest + 1 ∧
      ∃ tl, cur.events = st.events ++ tl ∧
        ∀ tid : Int, accumCount tl tid ≤ 1 ∧
          (accumCount tl tid = 1 →
            (cur.scars tid).lastTest = st.lastScarOverlapTest + 1 ∨
            (cur.scars tid).x2 ≤ 0)) st scar ?_ ?_
  · obtain ⟨h1, tl, hev, hcnt⟩ := main
    refine ⟨h1, fun tid => ?_⟩
    rw [hev, List.drop_left]
    exact (hcnt tid).1
  · intro s tid' _ hJ
    obtain ⟨hctr, tl, hev, hcnt⟩ := hJ
    by_cases hA : st.lastScarOverlapTest + 1 = (s.scars tid').lastTest
    · rw [processEntry_eq_of_stamped hA]
      exact ⟨hctr, tl, hev, hcnt⟩
    by_cases hB : scar.lifeTime < (s.scars tid').lifeTime
    · rw [processEntry_eq_of_lifeTime hA hB]
      exact ⟨hctr, tl, hev, hcnt⟩
    by_cases hC : ScarOverlapSize scar
        ({ s.scars tid' with lastTest := st.lastScarOverlapTest + 1 }) = 0 ∨
        (s.scars tid').basesize = 0
    · rw [processEntry_eq_of_guard hA hB hC]
      refine ⟨hctr, tl, hev, fun tid => ⟨(hcnt tid).1, fun h1 => ?_⟩⟩
      by_cases htt : tid = tid'
      · subst htt
        rw [stampState_scars_self]
        exact Or.inl rfl
      · rw [stampState_scars_ne _ _ htt]
        exact (hcnt tid).2 h1
    · have hzero : accumCount tl tid' = 0 := by
        rcases Nat.lt_or_ge (accumCount tl tid') 1 with h | h
        · omega
        · have h1 : accumCount tl tid' = 1 :=
            le_antisymm (hcnt tid').1 h
          rcases (hcnt tid').2 h1 with h2 | h2
          · exact absurd h2.symm hA
          · exact absurd
              (Or.inl (ScarOverlapSize_eq_zero_of_le (le_trans h2 hx))) hC
      by_cases hD : (s.scars tid').overdrawn +
          Int.tdiv (ScarOverlapSize scar
            ({ s.scars tid' with lastTest := st.lastScarOverlapTest + 1 }))
            (s.scars tid').basesize ≤ st.maxScarOverlapSize
      · rw [processEntry_eq_of_accum hA hB hC hD]
        refine ⟨hctr, tl ++
          [GDEvent.accum tid'
            (Int.tdiv (ScarOverlapSize scar
              ({ s.scars tid' with
                  lastTest := st.lastScarOverlapTest + 1 }))
              (s.scars tid').basesize)
            ((s.scars tid').overdrawn +
              Int.tdiv (ScarOverlapSize scar
                ({ s.scars tid' with
                    lastTest := st.lastScarOverlapTest + 1 }))
                (s.scars tid').basesize)], ?_, fun tid => ?_⟩
        · show s.events ++ _ = st.events ++ _
          rw [hev, List.append_assoc]
        · by_cases htt : tid = tid'
          · subst htt
            rw [accumCount_append, hzero, accumCount_accum_self]
            refine ⟨by omega, fun _ => ?_⟩
            rw [accumState_scars_self]
            exact Or.inl rfl
          · rw [accumCount_append,
              accumCount_accum_ne (fun hc => htt hc.symm)]
            refine ⟨by have := (hcnt tid).1; omega, fun h1 => ?_⟩
            rw [accumState_scars_ne _ _ _ htt]
            exact (hcnt tid).2 (by omega)
      · rw [processEntry_eq_of_remove hA hB hC hD]
        refine ⟨hctr, (tl ++
          [GDEvent.accum tid'
            (Int.tdiv (ScarOverlapSize scar
              ({ s.scars tid' with
                  lastTest := st.lastScarOverlapTest + 1 }))
              (s.scars tid').basesize)
            ((s.scars tid').overdrawn +
              Int.tdiv (ScarOverlapSize scar
                ({ s.scars tid' with
                    lastTest := st.lastScarOverlapTest + 1 }))
                (s.scars tid').basesize)]) ++
          [GDEvent.removed
            (((accumState (st.lastScarOverlapTest + 1) scar s
              tid').scars tid').id)
            (((accumState (st.lastScarOverlapTest + 1) scar s
              tid').scars tid').lifeTime)
            (((accumState (st.lastScarOverlapTest + 1) scar s
              tid').scars tid').overdrawn)], ?_, fun tid => ?_⟩
        · rw [RemoveScar_events]
          show (s.events ++ _) ++ _ = st.events ++ _
          rw [hev]
          simp only [List.append_assoc]
        · by_cases htt : tid = tid'
          · subst htt
            rw [accumCount_append, accumCount_append, hzero,
              accumCount_accum_self, accumCount_removed]
            refine ⟨by omega, fun _ => ?_⟩
            rw [RemoveScar_scars, setScar_self]
            exact Or.inr (by norm_num [Scar.reset])
          · rw [accumCount_append, accumCount_append,
              accumCount_accum_ne (fun hc => htt hc.symm),
              accumCount_removed]
            refine ⟨by have := (hcnt tid).1; omega, fun h1 => ?_⟩
            rw [RemoveScar_scars, setScar_ne _ _ _ htt,
              accumState_scars_ne _ _ _ htt]
            exact (hcnt tid).2 (by omega)
  · exact ⟨rfl, [], by simp, fun tid => ⟨by simp [accumCount], by
      simp [accumCount]⟩⟩

/-- C2: during the overlap pass for a new scar S, a candidate is evicted
exactly when its cumulative overdrawn counter - accumulated as the
integer-truncated quotient overlapArea / basesize - strictly exceeds
maxScarOverlapSize = decalLevel + 1: every removal event of the pass
records a counter strictly above the threshold, and every scar still in
the used set after the pass has its counter at or below the threshold
(assuming it did before, which the same statement makes invariant). -/
theorem C2_eviction_threshold (st : GDState) (scar : Scar)
    (decalLevel : Int)
    (hmax : st.maxScarOverlapSize = initMaxScarOverlapSize decalLevel)
    (hdl : 0 ≤ decalLevel)
    (hod : ∀ id ∈ st.usedScarIDs,
      (st.scars id).overdrawn ≤ st.maxScarOverlapSize) :
    (∀ e ∈ (TestScarOverlaps st scar).events.drop st.events.length,
      ∀ tid lt od, e = GDEvent.removed tid lt od →
        st.maxScarOverlapSize < od) ∧
    (∀ id ∈ (TestScarOverlaps st scar).usedScarIDs,
      ((TestScarOverlaps st scar).scars id).overdrawn ≤
        st.maxScarOverlapSize) := by
  have hmax0 : 0 ≤ st.maxScarOverlapSize := by
    rw [hmax]
    unfold initMaxScarOverlapSize
    omega
  have main := TestScarOverlaps_preserve
    (fun cur =>
      (∃ tl, cur.events = st.events ++ tl ∧
        ∀ e ∈ tl, ∀ tid lt od, e = GDEvent.removed tid lt od →
          st.maxScarOverlapSize < od) ∧
      (∀ id ∈ cur.usedScarIDs,
        (cur.scars id).overdrawn ≤ st.maxScarOverlapSize)) st scar ?_ ?_
  · obtain ⟨⟨tl, hev, hrem⟩, hused⟩ := main
    refine ⟨fun e he => ?_, hused⟩
    rw [hev, List.drop_left] at he
    exact hrem e he
  · intro s tid' _ hJ
    obtain ⟨⟨tl, hev, hrem⟩, hused⟩ := hJ
    by_cases hA : st.lastScarOverlapTest + 1 = (s.scars tid').lastTest
    · rw [processEntry_eq_of_stamped hA]
      exact ⟨⟨tl, hev, hrem⟩, hused⟩
    by_cases hB : scar.lifeTime < (s.scars tid').lifeTime
    · rw [processEntry_eq_of_lifeTime hA hB]
      exact ⟨⟨tl, hev, hrem⟩, hused⟩
    by_cases hC : ScarOverlapSize scar
        ({ s.scars tid' with lastTest := st.lastScarOverlapTest + 1 }) = 0 ∨
        (s.scars tid').basesize = 0
    · rw [processEntry_eq_of_guard hA hB hC]
      refine ⟨⟨tl, hev, hrem⟩, fun id hid => ?_⟩
      by_cases htt : id = tid'
      · subst htt
        rw [stampState_scars_self]
        exact hused id hid
      · rw [stampState_scars_ne _ _ htt]
        exact hused id hid
    by_cases hD : (s.scars tid').overdrawn +
        Int.tdiv (ScarOverlapSize scar
          ({ s.scars tid' with lastTest := st.lastScarOverlapTest + 1 }))
          (s.scars tid').basesize ≤ st.maxScarOverlapSize
    · rw [processEntry_eq_of_accum hA hB hC hD]
      refine ⟨⟨tl ++
        [GDEvent.accum tid'
          (Int.tdiv (ScarOverlapSize scar
            ({ s.scars tid' with
                lastTest := st.lastScarOverlapTest + 1 }))
            (s.scars tid').basesize)
          ((s.scars tid').overdrawn +
            Int.tdiv (ScarOverlapSize scar
              ({ s.scars tid' with
                  lastTest := st.lastScarOverlapTest + 1 }))
              (s.scars tid').basesize)], ?_, ?_⟩, fun id hid => ?_⟩
      · show s.events ++ _ = st.events ++ _
        rw [hev, List.append_assoc]
      · intro e he tid lt od heq
        rcases List.mem_append.mp he with h2 | h2
        · exact hrem e h2 tid lt od heq
        · simp only [List.mem_singleton] at h2
          subst h2
          exact absurd heq (by simp)
      · by_cases htt : id = tid'
        · subst htt
          rw [accumState_scars_self]
          exact hD
        · rw [accumState_scars_ne _ _ _ htt]
          exact hused id hid
    · rw [processEntry_eq_of_remove hA hB hC hD]
      refine ⟨⟨(tl ++
        [GDEvent.accum tid'
          (Int.tdiv (ScarOverlapSize scar
            ({ s.scars tid' with
                lastTest := st.lastScarOverlapTest + 1 }))
            (s.scars tid').basesize)
          ((s.scars tid').overdrawn +
            Int.tdiv (ScarOverlapSize scar
              ({ s.scars tid' with
                  lastTest := st.lastScarOverlapTest + 1 }))
              (s.scars tid').basesize)]) ++
        [GDEvent.removed
          (((accumState (st.lastScarOverlapTest + 1) scar s
            tid').scars tid').id)
          (((accumState (st.lastScarOverlapTest + 1) scar s
            tid').scars tid').lifeTime)
          (((accumState (st.lastScarOverlapTest + 1) scar s
            tid').scars tid').overdrawn)], ?_, ?_⟩, fun id hid => ?_⟩
      · rw [RemoveScar_events]
        show (s.events ++ _) ++ _ = st.events ++ _
        rw [hev]
        simp only [List.append_assoc]
      · intro e he tid lt od heq
        rcases List.mem_append.mp he with h2 | h2
        · rcases List.mem_append.mp h2 with h3 | h3
          · exact hrem e h3 tid lt od heq
          · simp only [List.mem_singleton] at h3
            subst h3
            exact absurd heq (by simp)
        · simp only [List.mem_singleton] at h2
          subst h2
          injection heq with _ _ hod2
          subst hod2
          rw [accumState_scars_self]
          show st.maxScarOverlapSize < (s.scars tid').overdrawn +
            Int.tdiv (ScarOverlapSize scar
              ({ s.scars tid' with
                  lastTest := st.lastScarOverlapTest + 1 }))
              (s.scars tid').basesize
          omega
      · rw [RemoveScar_usedScarIDs] at hid
        have hid2 := mem_of_mem_VectorErase hid
        by_cases htt : id = tid'
        · subst htt
          rw [RemoveScar_scars, setScar_self]
          show (0 : Int) ≤ st.maxScarOverlapSize
          exact hmax0
        · rw [RemoveScar_scars, setScar_ne _ _ _ htt,
            accumState_scars_ne _ _ _ htt]
          exact hused id hid2
  · exact ⟨⟨[], by simp, by simp⟩, hod⟩

/-- C1: eviction is monotonic-safe.  For every new scar S run through
TestScarOverlaps and every existing used scar T that the pass removes,
T's lifeTime at entry is at most S's: the lifetime guard (line 799) skips
- without removing - every candidate whose lifeTime strictly exceeds the
new scar's.  Hypotheses: used ids are duplicate-free, their records carry
their own id, every id recorded in a spatial-index cell either names its
own slot or names no used id, and -1 (the reset id) is not a used id -
all properties the handler maintains (see the Inv preservation theorem
for C6). -/
theorem C1_eviction_monotonic (st : GDState) (scar : Scar)
    (hnd : st.usedScarIDs.Nodup)
    (hcons : ∀ id ∈ st.usedScarIDs, (st.scars id).id = id)
    (hment : ∀ q ∈ st.scarField, ∀ j ∈ q,
      (st.scars j).id = j ∨ (st.scars j).id ∉ st.usedScarIDs)
    (hneg : (-1 : Int) ∉ st.usedScarIDs) :
    ∀ id ∈ st.usedScarIDs, id ∉ (TestScarOverlaps st scar).usedScarIDs →
      (st.scars id).lifeTime ≤ scar.lifeTime := by
  have main := TestScarOverlaps_preserve
    (fun cur =>
      (∀ id ∈ cur.usedScarIDs, id ∈ st.usedScarIDs) ∧
      (∀ id ∈ cur.usedScarIDs,
        (cur.scars id).lifeTime = (st.scars id).lifeTime) ∧
      (∀ id ∈ st.usedScarIDs, id ∉ cur.usedScarIDs →
        (st.scars id).lifeTime ≤ scar.lifeTime) ∧
      cur.usedScarIDs.Nodup ∧
      (∀ id ∈ cur.usedScarIDs, (cur.scars id).id = id) ∧
      (∀ k : Int, ∀ j ∈ getCell cur.scarField k,
        (cur.scars j).id = j ∨ (cur.scars j).id ∉ cur.usedScarIDs) ∧
      (-1 : Int) ∉ cur.usedScarIDs) st scar ?_ ?_
  · exact main.2.2.1
  · intro s tid' hmem hJ
    obtain ⟨hsub, hlife, hout, hnds, hid, hfld, hm1⟩ := hJ
    by_cases hA : st.lastScarOverlapTest + 1 = (s.scars tid').lastTest
    · rw [processEntry_eq_of_stamped hA]
      exact ⟨hsub, hlife, hout, hnds, hid, hfld, hm1⟩
    by_cases hB : scar.lifeTime < (s.scars tid').lifeTime
    · rw [processEntry_eq_of_lifeTime hA hB]
      exact ⟨hsub, hlife, hout, hnds, hid, hfld, hm1⟩
    by_cases hC : ScarOverlapSize scar
        ({ s.scars tid' with lastTest := st.lastScarOverlapTest + 1 }) = 0 ∨
        (s.scars tid').basesize = 0
    · rw [processEntry_eq_of_guard hA hB hC]
      refine ⟨hsub, fun id hid2 => ?_, hout, hnds, fun id hid2 => ?_,
        fun k j hj => ?_, hm1⟩
      · by_cases htt : id = tid'
        · subst htt
          rw [stampState_scars_self]
          exact hlife id hid2
        · rw [stampState_scars_ne _ _ htt]
          exact hlife id hid2
      · by_cases htt : id = tid'
        · subst htt
          rw [stampState_scars_self]
          exact hid id hid2
        · rw [stampState_scars_ne _ _ htt]
          exact hid id hid2
      · by_cases htt : j = tid'
        · subst htt
          rw [stampState_scars_self]
          exact hfld k j hj
        · rw [stampState_scars_ne _ _ htt]
          exact hfld k j hj
    by_cases hD : (s.scars tid').overdrawn +
        Int.tdiv (ScarOverlapSize scar
          ({ s.scars tid' with lastTest := st.lastScarOverlapTest + 1 }))
          (s.scars tid').basesize ≤ st.maxScarOverlapSize
    · rw [processEntry_eq_of_accum hA hB hC hD]
      refine ⟨hsub, fun id hid2 => ?_, hout, hnds, fun id hid2 => ?_,
        fun k j hj => ?_, hm1⟩
      · by_cases htt : id = tid'
        · subst htt
          rw [accumState_scars_self]
          exact hlife id hid2
        · rw [accumState_scars_ne _ _ _ htt]
          exact hlife id hid2
      · by_cases htt : id = tid'
        · subst htt
          rw [accumState_scars_self]
          exact hid id hid2
        · rw [accumState_scars_ne _ _ _ htt]
          exact hid id hid2
      · by_cases htt : j = tid'
        · subst htt
          rw [accumState_scars_self]
          exact hfld k j hj
        · rw [accumState_scars_ne _ _ _ htt]
          exact hfld k j hj
    · rw [processEntry_eq_of_remove hA hB hC hD]
      -- the accumState record at tid' keeps the original id and lifeTime
      have haid : ((accumState (st.lastScarOverlapTest + 1) scar s
          tid').scars tid').id = (s.scars tid').id := by
        rw [accumState_scars_self]
      by_cases hin : tid' ∈ s.usedScarIDs
      · have htid : (s.scars tid').id = tid' := hid tid' hin
        have herase : (RemoveScar (accumState (st.lastScarOverlapTest + 1)
            scar s tid') tid').usedScarIDs = VectorErase s.usedScarIDs tid' := by
          rw [RemoveScar_usedScarIDs, haid, htid]
          exact rfl
        refine ⟨?_, ?_, ?_, ?_, ?_, ?_, ?_⟩
        · intro id hid2
          rw [herase] at hid2
          exact hsub id (mem_of_mem_VectorErase hid2)
        · intro id hid2
          rw [herase] at hid2
          have hne : id ≠ tid' := by
            intro hc
            subst hc
            exact not_mem_VectorErase_self hnds hid2
          rw [RemoveScar_scars, setScar_ne _ _ _ hne,
            accumState_scars_ne _ _ _ hne]
          exact hlife id (mem_of_mem_VectorErase hid2)
        · intro id hidst hid2
          rw [herase] at hid2
          by_cases hids : id ∈ s.usedScarIDs
          · have hne : id = tid' := by
              by_contra hc
              exact hid2 (mem_VectorErase_of_ne hids hc)
            subst hne
            rw [← hlife id hin]
            omega
          · exact hout id hidst hids
        · rw [herase]
          exact nodup_VectorErase tid' hnds
        · intro id hid2
          rw [herase] at hid2
          have hne : id ≠ tid' := by
            intro hc
            subst hc
            exact not_mem_VectorErase_self hnds hid2
          rw [RemoveScar_scars, setScar_ne _ _ _ hne,
            accumState_scars_ne _ _ _ hne]
          exact hid id (mem_of_mem_VectorErase hid2)
        · intro k j hj
          rw [RemoveScar_scarField] at hj
          have hj2 := eraseFold_subset _ _ _ hj
          have hj3 : j ∈ getCell s.scarField k := hj2
          by_cases htt : j = tid'
          · subst htt
            rw [RemoveScar_scars, setScar_self]
            right
            rw [herase]
            show (-1 : Int) ∉ _
            intro hc
            exact hm1 (mem_of_mem_VectorErase hc)
          · rw [RemoveScar_scars, setScar_ne _ _ _ htt,
              accumState_scars_ne _ _ _ htt]
            rcases hfld k j hj3 with h2 | h2
            · exact Or.inl h2
            · right
              rw [herase]
              intro hc
              exact h2 (mem_of_mem_VectorErase hc)
        · rw [herase]
          intro hc
          exact hm1 (mem_of_mem_VectorErase hc)
      · have htidnotin : (s.scars tid').id ∉ s.usedScarIDs := by
          obtain ⟨cell, hcell⟩ := hmem
          rcases hfld cell tid' hcell with h2 | h2
          · rw [h2]
            exact hin
          · exact h2
        have herase : (RemoveScar (accumState (st.lastScarOverlapTest + 1)
            scar s tid') tid').usedScarIDs = s.usedScarIDs := by
          rw [RemoveScar_usedScarIDs, haid]
          show VectorErase s.usedScarIDs (s.scars tid').id = s.usedScarIDs
          exact VectorErase_of_not_mem htidnotin
        refine ⟨?_, ?_, ?_, ?_, ?_, ?_, ?_⟩
        · intro id hid2
          rw [herase] at hid2
          exact hsub id hid2
        · intro id hid2
          rw [herase] at hid2
          have hne : id ≠ tid' := fun hc => hin (hc ▸ hid2)
          rw [RemoveScar_scars, setScar_ne _ _ _ hne,
            accumState_scars_ne _ _ _ hne]
          exact hlife id hid2
        · intro id hidst hid2
          rw [herase] at hid2
          exact hout id hidst hid2
        · rw [herase]
          exact hnds
        · intro id hid2
          rw [herase] at hid2
          have hne : id ≠ tid' := fun hc => hin (hc ▸ hid2)
          rw [RemoveScar_scars, setScar_ne _ _ _ hne,
            accumState_scars_ne _ _ _ hne]
          exact hid id hid2
        · intro k j hj
          rw [RemoveScar_scarField] at hj
          have hj2 := eraseFold_subset _ _ _ hj
          have hj3 : j ∈ getCell s.scarField k := hj2
          by_cases htt : j = tid'
          · subst htt
            rw [RemoveScar_scars, setScar_self]
            right
            rw [herase]
            exact hm1
          · rw [RemoveScar_scars, setScar_ne _ _ _ htt,
              accumState_scars_ne _ _ _ htt]
            rcases hfld k j hj3 with h2 | h2
            · exact Or.inl h2
            · right
              rw [herase]
              exact h2
        · rw [herase]
          exact hm1
  · refine ⟨fun id h => h, fun id _ => rfl, fun id h1 h2 => absurd h1 h2,
      hnd, hcons, ?_, hneg⟩
    intro k j hj
    obtain ⟨q, hq, hjq⟩ := exists_mem_of_mem_getCell hj
    exact hment q hq j hjq

/-- C1 witness: in the concrete zero-threshold state the pass for the
new longer-lived scar evicts scar 0, and indeed the evicted scar's
lifeTime does not exceed the new scar's. -/
theorem C1_eviction_monotonic_witness :
    (c1state.scars 0).lifeTime ≤ exNewScar.lifeTime :=
  C1_eviction_monotonic c1state exNewScar (by decide) (by decide)
    (by decide) (by decide) 0 (by decide) (by decide)

/-- C2 witness: the threshold theorem at the concrete state with
decalLevel 1 (so maxScarOverlapSize = 2). -/
theorem C2_eviction_threshold_witness :
    (∀ e ∈ (TestScarOverlaps exState exNewScar).events.drop
        exState.events.length,
      ∀ tid lt od, e = GDEvent.removed tid lt od →
        exState.maxScarOverlapSize < od) ∧
    (∀ id ∈ (TestScarOverlaps exState exNewScar).usedScarIDs,
      ((TestScarOverlaps exState exNewScar).scars id).overdrawn ≤
        exState.maxScarOverlapSize) :=
  C2_eviction_threshold exState exNewScar 1 (by decide) (by decide)
    (by decide)

/-- C9 witness: the at-most-once accumulation theorem at the concrete
state. -/
theorem C9_accumulate_once_witness :
    (TestScarOverlaps exState exNewScar).lastScarOverlapTest =
      exState.lastScarOverlapTest + 1 ∧
    ∀ tid : Int,
      accumCount ((TestScarOverlaps exState exNewScar).events.drop
        exState.events.length) tid ≤ 1 :=
  C9_accumulate_once exState exNewScar (by decide)

/-- Positions before the erased element survive a VectorErase untouched
(on a duplicate-free vector whose element at position i is the erased
one): the swap only rewrites position i and pops the back. -/
theorem VectorErase_get_lt :
    ∀ (v : List Int) (e : Int), v.Nodup →
    ∀ (i : Nat) (hi : i < v.length), v.get ⟨i, hi⟩ = e →
    ∀ (k : Nat) (hki : k < i), ∃ hk2 : k < (VectorErase v e).length,
      (VectorErase v e).get ⟨k, hk2⟩ = v.get ⟨k, by omega⟩ := by
  intro v
  induction v with
  | nil =>
    intro e _ i hi
    simp at hi
  | cons a t ih =>
    intro e hnd i hi he k hki
    have hbt : a ∉ t := (List.nodup_cons.mp hnd).1
    have hndt : t.Nodup := (List.nodup_cons.mp hnd).2
    cases i with
    | zero => omega
    | succ j =>
      have hj : j < t.length := by
        simp at hi
        omega
      have hje : t.get ⟨j, hj⟩ = e := he
      have hae : a ≠ e := by
        intro hc
        subst hc
        exact hbt (hje ▸ List.get_mem t j hj)
      rw [VectorErase_cons, if_neg hae]
      cases k with
      | zero =>
        refine ⟨by simp, ?_⟩
        rfl
      | succ m =>
        have hm : m < j := by omega
        obtain ⟨hk2, heq⟩ := ih e hndt j hj hje m hm
        refine ⟨by simpa using Nat.succ_lt_succ hk2, ?_⟩
        simpa using heq

/-- Full specification of the DrawScars sweep loop: starting from index i
with the prefix before i already checked as unexpired, with enough fuel,
the sweep ends with exactly the unexpired scars of the entry state in the
used list.  Follows the loop at lines 511-524: an expired entry is
removed in place (the back element is swapped in and retried), a live one
is kept and the index advances. -/
theorem sweepScars_spec (st0 : GDState) (f : Int) :
    ∀ (fuel : Nat) (cur : GDState) (i : Nat),
      (∀ id ∈ cur.usedScarIDs, id ∈ st0.usedScarIDs) →
      (∀ id ∈ cur.usedScarIDs,
        (cur.scars id).lifeTime = (st0.scars id).lifeTime ∧
        (cur.scars id).id = id) →
      (∀ id ∈ st0.usedScarIDs, id ∉ cur.usedScarIDs →
        (st0.scars id).lifeTime < f) →
      cur.usedScarIDs.Nodup →
      (∀ (k : Nat), k < i → ∃ hk2 : k < cur.usedScarIDs.length,
        f ≤ (st0.scars (cur.usedScarIDs.get ⟨k, hk2⟩)).lifeTime) →
      cur.usedScarIDs.length ≤ fuel + i →
      ∀ id, id ∈ (sweepScars f fuel cur i).usedScarIDs ↔
        (id ∈ st0.usedScarIDs ∧ f ≤ (st0.scars id).lifeTime) := by
  intro fuel
  induction fuel with
  | zero =>
    intro cur i hsub hrec hout hnds hpre hlen id
    show id ∈ cur.usedScarIDs ↔ _
    constructor
    · intro hmem
      obtain ⟨⟨k, hk⟩, rfl⟩ := List.mem_iff_get.mp hmem
      obtain ⟨hk2, hge⟩ := hpre k (by omega)
      exact ⟨hsub _ hmem, hge⟩
    · rintro ⟨hmem0, hge⟩
      by_contra hc
      have := hout id hmem0 hc
      omega
  | succ fuel ih =>
    intro cur i hsub hrec hout hnds hpre hlen id
    rw [sweepScars]
    split
    case isTrue h =>
      by_cases hexp :
          (cur.scars (cur.usedScarIDs.get ⟨i, h⟩)).lifeTime < f
      · rw [if_pos hexp]
        have hsidmem : cur.usedScarIDs.get ⟨i, h⟩ ∈ cur.usedScarIDs :=
          List.get_mem _ _ _
        have hsid : (cur.scars (cur.usedScarIDs.get ⟨i, h⟩)).id =
            cur.usedScarIDs.get ⟨i, h⟩ := (hrec _ hsidmem).2
        have herase : (RemoveScar cur
            (cur.usedScarIDs.get ⟨i, h⟩)).usedScarIDs =
            VectorErase cur.usedScarIDs (cur.usedScarIDs.get ⟨i, h⟩) := by
          rw [RemoveScar_usedScarIDs, hsid]
        refine ih _ i ?_ ?_ ?_ ?_ ?_ ?_ id
        · intro id2 hid2
          rw [herase] at hid2
          exact hsub id2 (mem_of_mem_VectorErase hid2)
        · intro id2 hid2
          rw [herase] at hid2
          have hne : id2 ≠ cur.usedScarIDs.get ⟨i, h⟩ := by
            intro hc
            subst hc
            exact not_mem_VectorErase_self hnds hid2
          rw [RemoveScar_scars, setScar_ne _ _ _ hne]
          exact hrec id2 (mem_of_mem_VectorErase hid2)
        · intro id2 hid0 hid2
          rw [herase] at hid2
          by_cases hidc : id2 ∈ cur.usedScarIDs
          · have : id2 = cur.usedScarIDs.get ⟨i, h⟩ := by
              by_contra hc
              exact hid2 (mem_VectorErase_of_ne hidc hc)
            subst this
            have := (hrec _ hsidmem).1
            omega
          · exact hout id2 hid0 hidc
        · rw [herase]
          exact nodup_VectorErase _ hnds
        · intro k hk
          rw [herase]
          obtain ⟨hk2, heq⟩ := VectorErase_get_lt cur.usedScarIDs
            (cur.usedScarIDs.get ⟨i, h⟩) hnds i h rfl k hk
          refine ⟨hk2, ?_⟩
          rw [heq]
          obtain ⟨hk3, hge⟩ := hpre k hk
          exact hge
        · rw [herase]
          have := length_VectorErase_of_mem hsidmem
          omega
      · rw [if_neg hexp]
        refine ih _ (i + 1) hsub hrec hout hnds ?_ (by omega) id
        intro k hk
        by_cases hki : k < i
        · exact hpre k hki
        · have hkeq : k = i := by omega
          subst hkeq
          refine ⟨h, ?_⟩
          have := (hrec _ (List.get_mem cur.usedScarIDs k h)).1
          omega
    case isFalse h =>
      constructor
      · intro hmem
        obtain ⟨⟨k, hk⟩, rfl⟩ := List.mem_iff_get.mp hmem
        obtain ⟨hk2, hge⟩ := hpre k (by omega)
        exact ⟨hsub _ hmem, hge⟩
      · rintro ⟨hmem0, hge⟩
        by_contra hc
        have := hout id hmem0 hc
        omega

/-- C3 counterexample: a scar whose lifeTime equals the current frame
number exactly is NOT expired in that frame's sweep: the removal test at
line 516 is a strict less-than, so the scar survives DrawScars at frame 5
although its lifeTime is 5. -/
theorem C3_counterexample :
    (exState.scars 0).lifeTime = 5 ∧ 0 ∈ exState.usedScarIDs ∧
    0 ∈ (DrawScars exState 5).usedScarIDs := by
  decide

/-- C3 (amended): the DrawScars sweep removes exactly the scars whose
lifeTime is strictly below the current frame number, before drawing; a
scar whose lifeTime equals the current frame number survives this frame's
sweep (it is drawn) and is removed in the next frame's sweep, when the
frame number exceeds it. -/
theorem C3_expiry_strict (st : GDState) (f : Int)
    (hnd : st.usedScarIDs.Nodup)
    (hcons : ∀ id ∈ st.usedScarIDs, (st.scars id).id = id) :
    ∀ id, id ∈ (DrawScars st f).usedScarIDs ↔
      (id ∈ st.usedScarIDs ∧ f ≤ (st.scars id).lifeTime) := by
  unfold DrawScars
  exact sweepScars_spec st f st.usedScarIDs.length st 0
    (fun id h => h) (fun id h => ⟨rfl, hcons id h⟩)
    (fun id h1 h2 => absurd h1 h2) hnd
    (fun k hk => absurd hk (Nat.not_lt_zero k)) (by omega)

/-- C3 witness: the amended expiry theorem at the concrete state and
frame 5 (the boundary frame of its only scar). -/
theorem C3_expiry_strict_witness :
    (0 : Int) ∈ (DrawScars exState 5).usedScarIDs ↔
      ((0 : Int) ∈ exState.usedScarIDs ∧
        5 ≤ (exState.scars 0).lifeTime) :=
  C3_expiry_strict exState 5 (by decide) (by decide) 0

/-- One-dimensional core of the overlap computation: on one axis, for
intervals of positive extent that do overlap, the quantity computed by
`ScarOverlapSize` is positive, bounds the exact intersection width from
above, and equals it when neither interval strictly contains the other. -/
theorem overlap_axis (a1 a2 b1 b2 : Int) (ha : a1 < a2) (hb : b1 < b2)
    (hno : ¬(a1 ≥ b2 ∨ a2 ≤ b1)) :
    0 < min a2 b2 - max a1 b1 ∧
    min a2 b2 - max a1 b1 ≤ (if a1 < b1 then a2 - b1 else b2 - a1) ∧
    (((a1 < b1 → a2 ≤ b2) ∧ (b1 ≤ a1 → b2 ≤ a2)) →
      (if a1 < b1 then a2 - b1 else b2 - a1) = min a2 b2 - max a1 b1) := by
  split_ifs <;> omega

/-- When the guard in `ScarOverlapSize` fires on one axis, the exact
intersection extent on that axis is not positive. -/
theorem overlap_axis_disjoint (a1 a2 b1 b2 : Int) (hd : a1 ≥ b2 ∨ a2 ≤ b1) :
    min a2 b2 - max a1 b1 ≤ 0 := by
  omega

/-- C4 counterexample: both rectangles are well formed (x1 <= x2, y1 <= y2)
and intersect, yet `ScarOverlapSize` returns 16 where the exact 2D
axis-aligned intersection area is 4: the function is not the exact
intersection area. -/
theorem C4_counterexample :
    c4big.x1 ≤ c4big.x2 ∧ c4big.y1 ≤ c4big.y2 ∧
    c4small.x1 ≤ c4small.x2 ∧ c4small.y1 ≤ c4small.y2 ∧
    ScarOverlapSize c4big c4small = 16 ∧
    specExactOverlapArea c4big c4small = 4 ∧
    ScarOverlapSize c4big c4small ≠ specExactOverlapArea c4big c4small := by
  decide

/-- C4 (amended): for scars with positive-extent bounding rectangles,
`ScarOverlapSize` returns 0 exactly when the exact intersection area is 0
(the rectangles do not overlap); otherwise it returns at least the exact
intersection area, with equality whenever on each axis the rectangle whose
interval starts first does not extend past the other's end (no strict
containment of projections). -/
theorem C4_overlap_area_overapprox (s1 s2 : Scar)
    (hx1 : s1.x1 < s1.x2) (hy1 : s1.y1 < s1.y2)
    (hx2 : s2.x1 < s2.x2) (hy2 : s2.y1 < s2.y2) :
    specExactOverlapArea s1 s2 ≤ ScarOverlapSize s1 s2 ∧
    (ScarOverlapSize s1 s2 = 0 ↔ specExactOverlapArea s1 s2 = 0) ∧
    (((s1.x1 < s2.x1 → s1.x2 ≤ s2.x2) ∧ (s2.x1 ≤ s1.x1 → s2.x2 ≤ s1.x2) ∧
      (s1.y1 < s2.y1 → s1.y2 ≤ s2.y2) ∧ (s2.y1 ≤ s1.y1 → s2.y2 ≤ s1.y2)) →
      ScarOverlapSize s1 s2 = specExactOverlapArea s1 s2) := by
  unfold ScarOverlapSize specExactOverlapArea
  by_cases hdx : s1.x1 ≥ s2.x2 ∨ s1.x2 ≤ s2.x1
  · have h := overlap_axis_disjoint s1.x1 s1.x2 s2.x1 s2.x2 hdx
    simp only [if_pos hdx]
    have hx0 : max 0 (min s1.x2 s2.x2 - max s1.x1 s2.x1) = 0 := by omega
    refine ⟨?_, ?_, ?_⟩
    · rw [hx0, zero_mul]
    · constructor
      · intro _
        rw [hx0, zero_mul]
      · intro _; trivial
    · intro _
      rw [hx0, zero_mul]
  · by_cases hdy : s1.y1 ≥ s2.y2 ∨ s1.y2 ≤ s2.y1
    · have h := overlap_axis_disjoint s1.y1 s1.y2 s2.y1 s2.y2 hdy
      simp only [if_neg hdx, if_pos hdy]
      have hy0 : max 0 (min s1.y2 s2.y2 - max s1.y1 s2.y1) = 0 := by omega
      refine ⟨?_, ?_, ?_⟩
      · rw [hy0, mul_zero]
      · constructor
        · intro _
          rw [hy0, mul_zero]
        · intro _; trivial
      · intro _
        rw [hy0, mul_zero]
    · obtain ⟨hxpos, hxle, hxeq⟩ :=
        overlap_axis s1.x1 s1.x2 s2.x1 s2.x2 hx1 hx2 hdx
      obtain ⟨hypos, hyle, hyeq⟩ :=
        overlap_axis s1.y1 s1.y2 s2.y1 s2.y2 hy1 hy2 hdy
      simp only [if_neg hdx, if_neg hdy]
      have hmx : max 0 (min s1.x2 s2.x2 - max s1.x1 s2.x1) =
          min s1.x2 s2.x2 - max s1.x1 s2.x1 := by omega
      have hmy : max 0 (min s1.y2 s2.y2 - max s1.y1 s2.y1) =
          min s1.y2 s2.y2 - max s1.y1 s2.y1 := by omega
      rw [hmx, hmy]
      refine ⟨?_, ?_, ?_⟩
      · exact mul_le_mul hxle hyle (by omega) (by omega)
      · constructor
        · intro hz
          have hpos :
              0 < (if s1.x1 < s2.x1 then s1.x2 - s2.x1 else s2.x2 - s1.x1) *
                (if s1.y1 < s2.y1 then s1.y2 - s2.y1 else s2.y2 - s1.y1) :=
            mul_pos (lt_of_lt_of_le hxpos hxle) (lt_of_lt_of_le hypos hyle)
          exact absurd hz (ne_of_gt hpos)
        · intro hz
          have hpos :
              0 < (min s1.x2 s2.x2 - max s1.x1 s2.x1) *
                (min s1.y2 s2.y2 - max s1.y1 s2.y1) :=
            mul_pos hxpos hypos
          exact absurd hz (ne_of_gt hpos)
      · intro hc
        rw [hxeq ⟨hc.1, hc.2.1⟩, hyeq ⟨hc.2.2.1, hc.2.2.2⟩]

/-- C4 witness: the amended theorem applied to the concrete pair from the
counterexample (well-formed, x-contained rectangles). -/
theorem C4_overlap_area_overapprox_witness :
    specExactOverlapArea c4big c4small ≤ ScarOverlapSize c4big c4small ∧
    (ScarOverlapSize c4big c4small = 0 ↔
      specExactOverlapArea c4big c4small = 0) ∧
    (((c4big.x1 < c4small.x1 → c4big.x2 ≤ c4small.x2) ∧
      (c4small.x1 ≤ c4big.x1 → c4small.x2 ≤ c4big.x2) ∧
      (c4big.y1 < c4small.y1 → c4big.y2 ≤ c4small.y2) ∧
      (c4small.y1 ≤ c4big.y1 → c4small.y2 ≤ c4big.y2)) →
      ScarOverlapSize c4big c4small = specExactOverlapArea c4big c4small) :=
  C4_overlap_area_overapprox c4big c4small (by decide) (by decide)
    (by decide) (by decide)

/-- C5 counterexample: with a tie on x1, `ScarOverlapSize` takes the x
extent from its second argument, so swapping the arguments changes the
result (5 versus 10): the computation is not symmetric. -/
theorem C5_counterexample :
    ScarOverlapSize c5wide c5narrow = 5 ∧
    ScarOverlapSize c5narrow c5wide = 10 ∧
    ScarOverlapSize c5wide c5narrow ≠ ScarOverlapSize c5narrow c5wide := by
  decide

/-- C5 (amended): `ScarOverlapSize` is symmetric whenever the two
rectangles' start coordinates differ on both axes (s1.x1 differs from s2.x1
and s1.y1 differs from s2.y1); on a tied axis start, the tie-break takes
the extent from the second argument and symmetry can fail. -/
theorem C5_overlap_symm (s1 s2 : Scar)
    (hx : s1.x1 ≠ s2.x1) (hy : s1.y1 ≠ s2.y1) :
    ScarOverlapSize s1 s2 = ScarOverlapSize s2 s1 := by
  unfold ScarOverlapSize
  split_ifs <;> first | rfl | (exfalso; omega)

/-- C5 witness: the amended symmetry theorem applied to a concrete pair
with distinct x1 and y1. -/
theorem C5_overlap_symm_witness :
    ScarOverlapSize c5p c5q = ScarOverlapSize c5q c5p :=
  C5_overlap_symm c5p c5q (by decide) (by decide)

/-- C7: when the scar table is exhausted (freeScarIDs empty), GetScarID
reports -1 and AddExplosion leaves the whole state - scar table, spatial
index, pending-insert list, id lists - unchanged: the request is silently
dropped. -/
theorem C7_addExplosion_exhausted (st : GDState) (mkScar : Int → Scar)
    (h : st.freeScarIDs = []) :
    (GetScarID st.freeScarIDs).1 = -1 ∧ AddExplosion st mkScar = st := by
  have hfree : GetScarID st.freeScarIDs = (-1, st.freeScarIDs) := by
    unfold GetScarID
    rw [h]
    rfl
  refine ⟨by rw [hfree], ?_⟩
  unfold AddExplosion
  rw [hfree]
  rfl

/-- C7 witness: the exhaustion theorem applied to the concrete state. -/
theorem C7_addExplosion_exhausted_witness :
    (GetScarID c7state.freeScarIDs).1 = -1 ∧
    AddExplosion c7state (fun _ => Scar.reset) = c7state :=
  C7_addExplosion_exhausted c7state (fun _ => Scar.reset) rfl

/-- C8 counterexample: with decals disabled the function returns -2
(line 843), and with decals enabled but the texture failing to load it
also returns -2 (line 857): the load-failure sentinel is NOT distinct
from the decals-disabled value, so a caller cannot tell the two cases
apart by the return value alone. -/
theorem C8_counterexample :
    (GetSolidObjectDecalType false (fun s => s) (fun _ => false) []
      "Foo").1 = -2 ∧
    (GetSolidObjectDecalType true (fun s => s) (fun _ => false) []
      "Foo").1 = -2 ∧
    (GetSolidObjectDecalType false (fun s => s) (fun _ => false) []
        "Foo").1 =
      (GetSolidObjectDecalType true (fun s => s) (fun _ => false) []
        "Foo").1 :=
  ⟨rfl, rfl, rfl⟩

/-- C8 (amended): GetSolidObjectDecalType returns the sentinel -2 both
when decals are globally disabled and when the name is unregistered and
its texture fails to load; the two failure modes share the same return
value and are not distinguishable by it. -/
theorem C8_sentinel_shared (lowerOf : String → String)
    (loadOk : String → Bool) (types : List SolidObjectDecalType)
    (name : String)
    (hmiss : types.findIdx? (fun dt => dt.name == lowerOf name) = none)
    (hfail : loadOk ("unittextures/" ++ lowerOf name) = false) :
    (GetSolidObjectDecalType false lowerOf loadOk types name).1 = -2 ∧
    (GetSolidObjectDecalType true lowerOf loadOk types name).1 = -2 := by
  constructor
  · rfl
  · simp [GetSolidObjectDecalType, hmiss, hfail]

/-- C8 witness: the shared-sentinel theorem at a concrete name, empty
registry and always-failing loader. -/
theorem C8_sentinel_shared_witness :
    (GetSolidObjectDecalType false (fun s => s) (fun _ => false) []
      "armsolar").1 = -2 ∧
    (GetSolidObjectDecalType true (fun s => s) (fun _ => false) []
      "armsolar").1 = -2 :=
  C8_sentinel_shared (fun s => s) (fun _ => false) [] "armsolar" rfl rfl

/-- C++ integer division truncates toward zero; on nonnegative operands it
agrees with Lean's (flooring) `Int` division. -/
theorem tdiv_eq_ediv_of_nonneg (a b : Int) (ha : 0 ≤ a) (hb : 0 ≤ b) :
    Int.tdiv a b = a / b := by
  match a, b with
  | Int.ofNat m, Int.ofNat n => rfl
  | Int.negSucc m, _ => exact absurd ha (by exact of_decide_eq_false rfl)
  | Int.ofNat m, Int.negSucc n => exact absurd hb (by exact of_decide_eq_false rfl)

/-- Membership in the closed-interval loop range gives the loop bounds. -/
theorem mem_intRange {a b x : Int} (h : x ∈ intRange a b) : a ≤ x ∧ x ≤ b := by
  simp [intRange] at h
  obtain ⟨k, hk, rfl⟩ := h
  omega

/-- C10: every scar whose texel-quad rectangle was produced by AddExplosion
(lines 706-709: x1/y1 clamped below by 0, x2/y2 clamped above by
hmapx-1 = mapx/2 - 1 resp. hmapy-1) stays inside the scarField grid of
dimensions scarFieldX = mapx/32, scarFieldY = mapy/32 (ctor, lines 81-83):
the unclamped lower bounds x1/TEX_QUAD_SIZE and y1/TEX_QUAD_SIZE never
exceed scarFieldX-1 resp. scarFieldY-1, and every flat cell index
y * scarFieldX + x visited by AddScars/TestScarOverlaps/RemoveScar lies in
[0, scarFieldX * scarFieldY).  Hypotheses: engine map dimensions are
positive multiples of 32; the explosion position was clamped into the map
(cClampInBounds is not in this excerpt; the engine clamps x into
[0, 8*mapx - 1] and z into [0, 8*mapy - 1]); the effective radius is
nonnegative; floats are modelled as exact rationals, the int casts on the
nonnegative quantities of lines 706-709 as floors. -/
theorem C10_cells_in_bounds (mapx mapy : Int) (px pz radius : ℚ) (s : Scar)
    (hdx : 32 ∣ mapx) (hdy : 32 ∣ mapy)
    (hmx : 32 ≤ mapx) (hmy : 32 ≤ mapy)
    (hpx0 : 0 ≤ px) (hpx : px ≤ 8 * (mapx : ℚ) - 1)
    (hpz0 : 0 ≤ pz) (hpz : pz ≤ 8 * (mapy : ℚ) - 1)
    (hrad : 0 ≤ radius)
    (hs1 : s.x1 = scarRectX1 px radius)
    (hs2 : s.y1 = scarRectY1 pz radius)
    (hs3 : s.x2 = scarRectX2 (mapx / 2) px radius)
    (hs4 : s.y2 = scarRectY2 (mapy / 2) pz radius) :
    Int.tdiv s.x1 TEX_QUAD_SIZE ≤ mapx / 32 - 1 ∧
    Int.tdiv s.y1 TEX_QUAD_SIZE ≤ mapy / 32 - 1 ∧
    ∀ k ∈ scarCellIndices (mapx / 32) (mapy / 32) s,
      0 ≤ k ∧ k < (mapx / 32) * (mapy / 32) := by
  obtain ⟨kx, rfl⟩ := hdx
  obtain ⟨ky, rfl⟩ := hdy
  have hkx1 : (1 : Int) ≤ kx := by omega
  have hky1 : (1 : Int) ≤ ky := by omega
  have hkxQ : (1 : ℚ) ≤ (kx : ℚ) := by exact_mod_cast hkx1
  have hkyQ : (1 : ℚ) ≤ (ky : ℚ) := by exact_mod_cast hky1
  have hfX : 32 * kx / 32 = kx := by omega
  have hfY : 32 * ky / 32 = ky := by omega
  have hhx : 32 * kx / 2 = 16 * kx := by omega
  have hhy : 32 * ky / 2 = 16 * ky := by omega
  have hx10 : 0 ≤ s.x1 := by
    rw [hs1, scarRectX1]
    exact Int.floor_nonneg.mpr (le_max_left 0 _)
  have hx11 : s.x1 < 16 * kx := by
    rw [hs1, scarRectX1]
    rw [Int.floor_lt]
    have hc : ((16 * kx : Int) : ℚ) = 16 * (kx : ℚ) := by push_cast; ring
    rw [hc]
    have hnum : px - radius < 16 * (kx : ℚ) * 16 := by
      have hcast : ((32 * kx : Int) : ℚ) = 32 * (kx : ℚ) := by push_cast; ring
      rw [hcast] at hpx
      nlinarith
    have hdivlt : (px - radius) / 16 < 16 * (kx : ℚ) :=
      (div_lt_iff₀ (by norm_num : (0:ℚ) < 16)).mpr hnum
    exact max_lt (by nlinarith) hdivlt
  have hy10 : 0 ≤ s.y1 := by
    rw [hs2, scarRectY1]
    exact Int.floor_nonneg.mpr (le_max_left 0 _)
  have hy11 : s.y1 < 16 * ky := by
    rw [hs2, scarRectY1]
    rw [Int.floor_lt]
    have hc : ((16 * ky : Int) : ℚ) = 16 * (ky : ℚ) := by push_cast; ring
    rw [hc]
    have hnum : pz - radius < 16 * (ky : ℚ) * 16 := by
      have hcast : ((32 * ky : Int) : ℚ) = 32 * (ky : ℚ) := by push_cast; ring
      rw [hcast] at hpz
      nlinarith
    have hdivlt : (pz - radius) / 16 < 16 * (ky : ℚ) :=
      (div_lt_iff₀ (by norm_num : (0:ℚ) < 16)).mpr hnum
    exact max_lt (by nlinarith) hdivlt
  have hx20 : 0 ≤ s.x2 := by
    rw [hs3, scarRectX2, hhx]
    refine Int.le_floor.mpr ?_
    refine le_min ?_ ?_
    · have hc : ((16 * kx : Int) : ℚ) = 16 * (kx : ℚ) := by push_cast; ring
      rw [hc]
      push_cast
      nlinarith
    · push_cast
      have : (0:ℚ) ≤ (px + radius) / 16 := by positivity
      linarith
  have hy20 : 0 ≤ s.y2 := by
    rw [hs4, scarRectY2, hhy]
    refine Int.le_floor.mpr ?_
    refine le_min ?_ ?_
    · have hc : ((16 * ky : Int) : ℚ) = 16 * (ky : ℚ) := by push_cast; ring
      rw [hc]
      push_cast
      nlinarith
    · push_cast
      have : (0:ℚ) ≤ (pz + radius) / 16 := by positivity
      linarith
  have hT : TEX_QUAD_SIZE = (16 : Int) := rfl
  have htd1 : Int.tdiv s.x1 TEX_QUAD_SIZE = s.x1 / 16 := by
    rw [hT]; exact tdiv_eq_ediv_of_nonneg _ _ hx10 (by norm_num)
  have htd2 : Int.tdiv s.y1 TEX_QUAD_SIZE = s.y1 / 16 := by
    rw [hT]; exact tdiv_eq_ediv_of_nonneg _ _ hy10 (by norm_num)
  refine ⟨?_, ?_, ?_⟩
  · rw [htd1, hfX]; omega
  · rw [htd2, hfY]; omega
  · rw [hfX, hfY]
    intro k hk
    simp only [scarCellIndices, List.mem_flatMap, List.mem_map] at hk
    obtain ⟨y, hy, x, hx, rfl⟩ := hk
    have hyb := mem_intRange hy
    have hxb := mem_intRange hx
    rw [htd2] at hyb
    rw [htd1] at hxb
    have hy0 : 0 ≤ y := by
      have : 0 ≤ s.y1 / 16 := by omega
      omega
    have hyk : y ≤ ky - 1 := by
      have := hyb.2
      omega
    have hx0 : 0 ≤ x := by
      have : 0 ≤ s.x1 / 16 := by omega
      omega
    have hxk : x ≤ kx - 1 := by
      have := hxb.2
      omega
    have hkx0 : (0 : Int) ≤ kx := by omega
    constructor
    · have h1 : 0 ≤ y * kx := mul_nonneg hy0 hkx0
      linarith
    · have h1 : y * kx ≤ (ky - 1) * kx := mul_le_mul_of_nonneg_right hyk hkx0
      linarith [h1, hxk]

/-- C10 witness: the in-bounds theorem for the concrete rectangle that an
explosion at (100, 50) with radius 10 gets on a 64x64 map (scarField is
2x2, cells 0-3). -/
theorem C10_cells_in_bounds_witness :
    Int.tdiv c10scar.x1 TEX_QUAD_SIZE ≤ 64 / 32 - 1 ∧
    Int.tdiv c10scar.y1 TEX_QUAD_SIZE ≤ 64 / 32 - 1 ∧
    ∀ k ∈ scarCellIndices (64 / 32) (64 / 32) c10scar,
      0 ≤ k ∧ k < (64 / 32) * (64 / 32) :=
  C10_cells_in_bounds 64 64 100 50 10 c10scar (by norm_num) (by norm_num)
    (by norm_num) (by norm_num) (by norm_num) (by norm_num) (by norm_num)
    (by norm_num) (by norm_num)
    (by
      show (5 : Int) = scarRectX1 100 10
      rw [scarRectX1, max_eq_right (by norm_num : (0:ℚ) ≤ (100 - 10) / 16)]
      symm
      rw [Int.floor_eq_iff]
      constructor <;> norm_num)
    (by
      show (2 : Int) = scarRectY1 50 10
      rw [scarRectY1, max_eq_right (by norm_num : (0:ℚ) ≤ (50 - 10) / 16)]
      symm
      rw [Int.floor_eq_iff]
      constructor <;> norm_num)
    (by
      show (7 : Int) = scarRectX2 (64 / 2) 100 10
      rw [scarRectX2,
        min_eq_right (by norm_num : ((100:ℚ) + 10) / 16 + 1 ≤ ((64/2 : Int) : ℚ) - 1)]
      symm
      rw [Int.floor_eq_iff]
      constructor <;> norm_num)
    (by
      show (4 : Int) = scarRectY2 (64 / 2) 50 10
      rw [scarRectY2,
        min_eq_right (by norm_num : ((50:ℚ) + 10) / 16 + 1 ≤ ((64/2 : Int) : ℚ) - 1)]
      symm
      rw [Int.floor_eq_iff]
      constructor <;> norm_num)

/-- Appending a fresh element keeps a list duplicate-free. -/
theorem nodup_append_singleton {l : List Int} {a : Int} (hnd : l.Nodup)
    (ha : a ∉ l) : (l ++ [a]).Nodup := by
  rw [List.nodup_append]
  exact ⟨hnd, List.nodup_singleton a,
    fun x hx hxa => ha ((List.mem_singleton.mp hxa) ▸ hx)⟩

/-- RemoveScar at a used slot clears the id from every spatial-index cell,
removes it from the used list, and recycles it into the free list exactly
once. -/
theorem RemoveScar_clears {st : GDState} {sid : Int} (h : Inv st)
    (hsid : sid ∈ st.usedScarIDs) :
    (∀ j : Int, sid ∉ getCell (RemoveScar st sid).scarField j) ∧
    sid ∉ (RemoveScar st sid).usedScarIDs ∧
    (RemoveScar st sid).freeScarIDs.count sid = 1 := by
  obtain ⟨⟨hfN, huN, hfu, huC, hcU, hcN, hcO⟩, _, _, _, _⟩ := h
  have hid : (st.scars sid).id = sid := huC sid hsid
  refine ⟨?_, ?_, ?_⟩
  · intro j
    rw [RemoveScar_scarField, hid]
    by_cases hj : j ∈ scarCellIndices st.scarFieldX st.scarFieldY
      (st.scars sid)
    · exact eraseFold_removes _ sid _ hcN j hj
    · intro hc
      have h2 := eraseFold_subset _ sid _ hc
      exact hj (hcO j sid h2)
  · rw [RemoveScar_usedScarIDs, hid]
    exact not_mem_VectorErase_self huN
  · rw [RemoveScar_freeScarIDs, hid]
    exact count_VectorInsertUnique_self (fun hc => hfu sid hc hsid)

/-- RemoveScar at a used slot preserves the handler invariant. -/
theorem RemoveScar_Inv {st : GDState} {sid : Int} (h : Inv st)
    (hsid : sid ∈ st.usedScarIDs) : Inv (RemoveScar st sid) := by
  have hclear := RemoveScar_clears h hsid
  obtain ⟨⟨hfN, huN, hfu, huC, hcU, hcN, hcO⟩, haN, haU, haF, haC⟩ := h
  have hid : (st.scars sid).id = sid := huC sid hsid
  have hsubset : ∀ {j a : Int}, a ∈ getCell (RemoveScar st sid).scarField j →
      a ∈ getCell st.scarField j := by
    intro j a ha
    rw [RemoveScar_scarField] at ha
    exact eraseFold_subset _ _ _ ha
  have hanesid : ∀ {j a : Int}, a ∈ getCell (RemoveScar st sid).scarField j →
      a ≠ sid := by
    intro j a ha hc
    subst hc
    exact hclear.1 j ha
  refine ⟨⟨?_, ?_, ?_, ?_, ?_, ?_, ?_⟩, ?_, ?_, ?_, ?_⟩
  · rw [RemoveScar_freeScarIDs, hid]
    exact nodup_VectorInsertUnique _ hfN
  · rw [RemoveScar_usedScarIDs, hid]
    exact nodup_VectorErase _ huN
  · intro i hi
    rw [RemoveScar_freeScarIDs, hid] at hi
    rw [RemoveScar_usedScarIDs, hid]
    rcases mem_VectorInsertUnique.mp hi with h2 | rfl
    · intro hc
      exact hfu i h2 (mem_of_mem_VectorErase hc)
    · exact not_mem_VectorErase_self huN
  · intro i hi
    rw [RemoveScar_usedScarIDs, hid] at hi
    have hne : i ≠ sid := by
      intro hc
      subst hc
      exact not_mem_VectorErase_self huN hi
    rw [RemoveScar_scars, setScar_ne _ _ _ hne]
    exact huC i (mem_of_mem_VectorErase hi)
  · intro j a ha
    have h2 := hsubset ha
    have hne := hanesid ha
    rw [RemoveScar_usedScarIDs, hid]
    exact mem_VectorErase_of_ne (hcU j a h2) hne
  · intro j
    rw [RemoveScar_scarField]
    exact eraseFold_nodup _ _ _ hcN j
  · intro j a ha
    have h2 := hsubset ha
    have hne := hanesid ha
    rw [RemoveScar_scars, RemoveScar_fieldX, RemoveScar_fieldY,
      setScar_ne _ _ _ hne]
    exact hcO j a h2
  · rw [RemoveScar_addedScars]
    exact haN
  · intro i hi
    rw [RemoveScar_addedScars] at hi
    rw [RemoveScar_usedScarIDs, hid]
    intro hc
    exact haU i hi (mem_of_mem_VectorErase hc)
  · intro i hi
    rw [RemoveScar_addedScars] at hi
    rw [RemoveScar_freeScarIDs, hid]
    intro hc
    rcases mem_VectorInsertUnique.mp hc with h2 | rfl
    · exact haF i hi h2
    · exact haU i hi hsid
  · intro i hi
    rw [RemoveScar_addedScars] at hi
    have hne : i ≠ sid := by
      intro hc
      subst hc
      exact haU i hi hsid
    rw [RemoveScar_scars, setScar_ne _ _ _ hne]
    exact haC i hi

/-- Congruence: the invariant transports across any state change that
keeps the id lists, the field and its dimensions, and, slotwise, the
record's id and covered cells (e.g. stamping or accumulating onto a
record, bumping the pass counter, or appending events). -/
theorem Inv_congr (st st' : GDState)
    (hfree : st'.freeScarIDs = st.freeScarIDs)
    (hused : st'.usedScarIDs = st.usedScarIDs)
    (hadded : st'.addedScars = st.addedScars)
    (hfield : st'.scarField = st.scarField)
    (hscars : ∀ i : Int, (st'.scars i).id = (st.scars i).id ∧
      scarCellIndices st'.scarFieldX st'.scarFieldY (st'.scars i) =
        scarCellIndices st.scarFieldX st.scarFieldY (st.scars i))
    (h : Inv st) : Inv st' := by
  obtain ⟨⟨hfN, huN, hfu, huC, hcU, hcN, hcO⟩, haN, haU, haF, haC⟩ := h
  refine ⟨⟨?_, ?_, ?_, ?_, ?_, ?_, ?_⟩, ?_, ?_, ?_, ?_⟩
  · rw [hfree]; exact hfN
  · rw [hused]; exact huN
  · intro i hi
    rw [hfree] at hi
    rw [hused]
    exact hfu i hi
  · intro i hi
    rw [hused] at hi
    rw [(hscars i).1]
    exact huC i hi
  · intro j a ha
    rw [hfield] at ha
    rw [hused]
    exact hcU j a ha
  · intro j
    rw [hfield]
    exact hcN j
  · intro j a ha
    rw [hfield] at ha
    rw [(hscars a).2]
    exact hcO j a ha
  · rw [hadded]; exact haN
  · intro i hi
    rw [hadded] at hi
    rw [hused]
    exact haU i hi
  · intro i hi
    rw [hadded] at hi
    rw [hfree]
    exact haF i hi
  · intro i hi
    rw [hadded] at hi
    rw [(hscars i).1]
    exact haC i hi

/-- Stamping a record with the pass counter preserves the invariant. -/
theorem stampState_Inv (passCtr : Int) {s : GDState} (tid : Int)
    (h : Inv s) : Inv (stampState passCtr s tid) := by
  refine Inv_congr s _ rfl rfl rfl rfl ?_ h
  intro i
  by_cases hi : i = tid
  · subst hi
    rw [stampState_scars_self]
    exact ⟨rfl, rfl⟩
  · rw [stampState_scars_ne _ _ hi]
    exact ⟨rfl, rfl⟩

/-- Accumulating overlap onto a record preserves the invariant. -/
theorem accumState_Inv (passCtr : Int) (scar : Scar) {s : GDState}
    (tid : Int) (h : Inv s) : Inv (accumState passCtr scar s tid) := by
  refine Inv_congr s _ rfl rfl rfl rfl ?_ h
  intro i
  by_cases hi : i = tid
  · subst hi
    rw [accumState_scars_self]
    exact ⟨rfl, rfl⟩
  · rw [accumState_scars_ne _ _ _ hi]
    exact ⟨rfl, rfl⟩

/-- One entry of the eviction pass preserves the invariant, given the
entry id was read from a spatial-index cell. -/
theorem processEntry_Inv {passCtr maxO : Int} {scar : Scar} {s : GDState}
    {tid : Int} (hmem : ∃ cell : Int, tid ∈ getCell s.scarField cell)
    (h : Inv s) : Inv (processEntry passCtr maxO scar s tid) := by
  by_cases hA : passCtr = (s.scars tid).lastTest
  · rwa [processEntry_eq_of_stamped hA]
  by_cases hB : scar.lifeTime < (s.scars tid).lifeTime
  · rwa [processEntry_eq_of_lifeTime hA hB]
  by_cases hC : ScarOverlapSize scar { s.scars tid with lastTest := passCtr }
      = 0 ∨ (s.scars tid).basesize = 0
  · rw [processEntry_eq_of_guard hA hB hC]
    exact stampState_Inv passCtr tid h
  by_cases hD : (s.scars tid).overdrawn +
      Int.tdiv (ScarOverlapSize scar { s.scars tid with lastTest := passCtr })
        (s.scars tid).basesize ≤ maxO
  · rw [processEntry_eq_of_accum hA hB hC hD]
    exact accumState_Inv passCtr scar tid h
  · rw [processEntry_eq_of_remove hA hB hC hD]
    have htid : tid ∈ s.usedScarIDs := by
      obtain ⟨c, hc⟩ := hmem
      exact h.1.2.2.2.2.1 c tid hc
    exact RemoveScar_Inv (accumState_Inv passCtr scar tid h) htid

/-- A whole eviction pass preserves the invariant. -/
theorem TestScarOverlaps_Inv {st : GDState} (scar : Scar) (h : Inv st) :
    Inv (TestScarOverlaps st scar) := by
  refine TestScarOverlaps_preserve Inv st scar ?_ ?_
  · intro s tid hmem hP
    exact processEntry_Inv hmem hP
  · exact Inv_congr st _ rfl rfl rfl rfl (fun _ => ⟨rfl, rfl⟩) h

/-- processEntry leaves the pending-insert list alone. -/
theorem processEntry_addedScars (passCtr maxO : Int) (scar : Scar)
    (st : GDState) (tid : Int) :
    (processEntry passCtr maxO scar st tid).addedScars = st.addedScars := by
  simp only [processEntry]
  split_ifs <;> rfl

/-- TestScarOverlaps leaves the pending-insert list alone. -/
theorem TestScarOverlaps_addedScars (st : GDState) (scar : Scar) :
    (TestScarOverlaps st scar).addedScars = st.addedScars :=
  TestScarOverlaps_preserve (fun s => s.addedScars = st.addedScars) st scar
    (fun _ _ _ hP => (processEntry_addedScars _ _ _ _ _).trans hP)
    rfl

/-- The free list GetScarID returns is a sublist of the one it was
given (unchanged, or the back popped). -/
theorem GetScarID_snd_sublist (free : List Int) :
    (GetScarID free).2.Sublist free := by
  unfold GetScarID
  split_ifs
  · exact List.Sublist.refl free
  · exact List.dropLast_sublist free

/-- When GetScarID hands out an id, the id is the back of the free list
and the returned list is the free list with the back popped. -/
theorem GetScarID_pop {free : List Int} (h : ¬(GetScarID free).1 = -1) :
    (GetScarID free).1 ∈ free ∧ (GetScarID free).2 = free.dropLast ∧
    free ≠ [] ∧ (GetScarID free).1 = free.getLastD 0 := by
  unfold GetScarID at *
  by_cases he : free.isEmpty
  · rw [if_pos he] at h
    exact absurd rfl h
  · rw [if_neg he] at h ⊢
    have hne : free ≠ [] := by
      intro hc
      subst hc
      exact he rfl
    refine ⟨?_, rfl, hne, rfl⟩
    cases free with
    | nil => exact absurd rfl hne
    | cons b t => exact getLastD_mem_cons b t

/-- AddExplosion preserves the invariant, provided the stored record
carries its slot id (line 697). -/
theorem AddExplosion_Inv {st : GDState} {mkScar : Int → Scar}
    (hmk : ∀ i : Int, (mkScar i).id = i) (h : Inv st) :
    Inv (AddExplosion st mkScar) := by
  have hsub := GetScarID_snd_sublist st.freeScarIDs
  obtain ⟨⟨hfN, huN, hfu, huC, hcU, hcN, hcO⟩, haN, haU, haF, haC⟩ := h
  simp only [AddExplosion]
  split_ifs with hid
  · exact ⟨⟨List.Nodup.sublist hsub hfN, huN,
      fun i hi => hfu i (hsub.subset hi), huC, hcU, hcN, hcO⟩,
      haN, haU, fun i hi hc => haF i hi (hsub.subset hc), haC⟩
  · obtain ⟨hmemF, hsnd, hneF, hlast⟩ := GetScarID_pop hid
    have hnotU : (GetScarID st.freeScarIDs).1 ∉ st.usedScarIDs :=
      hfu _ hmemF
    have hnotA : (GetScarID st.freeScarIDs).1 ∉ st.addedScars := by
      intro hc
      exact haF _ hc hmemF
    refine ⟨⟨?_, ?_, ?_, ?_, ?_, ?_, ?_⟩, ?_, ?_, ?_, ?_⟩
    · exact List.Nodup.sublist hsub hfN
    · exact huN
    · intro i hi
      exact hfu i (hsub.subset hi)
    · intro i hi
      have hne : i ≠ (GetScarID st.freeScarIDs).1 := by
        intro hc
        subst hc
        exact hnotU hi
      show (setScar st.scars (GetScarID st.freeScarIDs).1
        (mkScar (GetScarID st.freeScarIDs).1) i).id = i
      rw [setScar_ne _ _ _ hne]
      exact huC i hi
    · intro j a ha
      exact hcU j a ha
    · intro j
      exact hcN j
    · intro j a ha
      have ha2 := hcU j a ha
      have hne : a ≠ (GetScarID st.freeScarIDs).1 := by
        intro hc
        subst hc
        exact hnotU ha2
      show j ∈ scarCellIndices st.scarFieldX st.scarFieldY
        (setScar st.scars (GetScarID st.freeScarIDs).1
          (mkScar (GetScarID st.freeScarIDs).1) a)
      rw [setScar_ne _ _ _ hne]
      exact hcO j a ha
    · exact nodup_append_singleton haN hnotA
    · intro i hi
      rcases List.mem_append.mp hi with h2 | h2
      · exact haU i h2
      · rw [List.mem_singleton.mp h2]
        exact hnotU
    · intro i hi hc
      rcases List.mem_append.mp hi with h2 | h2
      · exact haF i h2 (hsub.subset hc)
      · rw [List.mem_singleton.mp h2] at hc
        rw [hsnd] at hc
        rw [hlast] at hc
        exact getLastD_not_mem_dropLast hfN hneF hc
    · intro i hi
      show (setScar st.scars (GetScarID st.freeScarIDs).1
        (mkScar (GetScarID st.freeScarIDs).1) i).id = i
      rcases List.mem_append.mp hi with h2 | h2
      · have hne : i ≠ (GetScarID st.freeScarIDs).1 := by
          intro hc
          subst hc
          exact hnotA h2
        rw [setScar_ne _ _ _ hne]
        exact haC i h2
      · rw [List.mem_singleton.mp h2, setScar_self]
        exact hmk _

/-- The expiry sweep preserves the invariant. -/
theorem sweepScars_Inv (frameNum : Int) :
    ∀ (fuel : Nat) (st : GDState) (i : Nat), Inv st →
      Inv (sweepScars frameNum fuel st i) := by
  intro fuel
  induction fuel with
  | zero =>
    intro st i h
    exact h
  | succ fuel ih =>
    intro st i h
    rw [sweepScars]
    split
    case isTrue hlt =>
      by_cases hexp :
          (st.scars (st.usedScarIDs.get ⟨i, hlt⟩)).lifeTime < frameNum
      · rw [if_pos hexp]
        exact ih _ _ (RemoveScar_Inv h (List.get_mem _ _ _))
      · rw [if_neg hexp]
        exact ih _ _ h
    case isFalse => exact h

/-- DrawScars preserves the invariant. -/
theorem DrawScars_Inv (frameNum : Int) {st : GDState} (h : Inv st) :
    Inv (DrawScars st frameNum) :=
  sweepScars_Inv frameNum _ st 0 h

/-- Committing one pending scar appends its id to the used list. -/
theorem insertScarIntoField_used (st : GDState) (id0 : Int) :
    (insertScarIntoField st id0).usedScarIDs =
      st.usedScarIDs ++ [id0] := rfl

/-- Committing one pending scar leaves the free list alone. -/
theorem insertScarIntoField_free (st : GDState) (id0 : Int) :
    (insertScarIntoField st id0).freeScarIDs = st.freeScarIDs := rfl

/-- Committing one pending scar leaves the scar records alone. -/
theorem insertScarIntoField_scars (st : GDState) (id0 : Int) :
    (insertScarIntoField st id0).scars = st.scars := rfl

/-- Committing one pending scar updates the field by the insert fold over
the record's cells. -/
theorem insertScarIntoField_field (st : GDState) (id0 : Int) :
    (insertScarIntoField st id0).scarField =
      (scarCellIndices st.scarFieldX st.scarFieldY (st.scars id0)).foldl
        (fun f k => setCell f k (VectorInsertUnique (getCell f k)
          (st.scars id0).id)) st.scarField := rfl

/-- Committing one pending id that is neither used nor free, whose record
carries its own id, preserves the core invariant. -/
theorem insertScarIntoField_core {s : GDState} {id0 : Int}
    (hnotU : id0 ∉ s.usedScarIDs) (hnotF : id0 ∉ s.freeScarIDs)
    (hcons : (s.scars id0).id = id0) (hc : InvCore s) :
    InvCore (insertScarIntoField s id0) := by
  obtain ⟨hfN, huN, hfu, huC, hcU, hcN, hcO⟩ := hc
  refine ⟨?_, ?_, ?_, ?_, ?_, ?_, ?_⟩
  · exact hfN
  · rw [insertScarIntoField_used]
    exact nodup_append_singleton huN hnotU
  · intro i hi
    rw [insertScarIntoField_used]
    intro hmem
    rcases List.mem_append.mp hmem with h2 | h2
    · exact hfu i hi h2
    · rw [List.mem_singleton.mp h2] at hi
      exact hnotF hi
  · intro i hi
    rw [insertScarIntoField_used] at hi
    show (s.scars i).id = i
    rcases List.mem_append.mp hi with h2 | h2
    · exact huC i h2
    · rw [List.mem_singleton.mp h2]
      exact hcons
  · intro j a ha
    rw [insertScarIntoField_field] at ha
    rw [insertScarIntoField_used]
    rcases insertFold_mem _ _ _ ha with h2 | ⟨rfl, _⟩
    · exact List.mem_append.mpr (Or.inl (hcU j a h2))
    · rw [hcons]
      exact List.mem_append.mpr (Or.inr (List.mem_singleton.mpr rfl))
  · intro j
    rw [insertScarIntoField_field]
    exact insertFold_nodup _ _ _ hcN j
  · intro j a ha
    rw [insertScarIntoField_field] at ha
    show j ∈ scarCellIndices s.scarFieldX s.scarFieldY (s.scars a)
    rcases insertFold_mem _ _ _ ha with h2 | ⟨rfl, h2⟩
    · exact hcO j a h2
    · rw [hcons]
      exact h2

/-- The whole commit loop of AddScars preserves the core invariant when
the pending ids are fresh: pairwise distinct, neither used nor free, each
record carrying its own id. -/
theorem insertFoldPhase (lst : List Int) :
    ∀ (s : GDState), lst.Nodup →
      (∀ i ∈ lst, i ∉ s.usedScarIDs) →
      (∀ i ∈ lst, i ∉ s.freeScarIDs) →
      (∀ i ∈ lst, (s.scars i).id = i) →
      InvCore s → InvCore (lst.foldl insertScarIntoField s) := by
  induction lst with
  | nil =>
    intro s _ _ _ _ hc
    exact hc
  | cons b t ih =>
    intro s hnd hU hF hC hc
    rw [List.foldl_cons]
    have hbU : b ∉ s.usedScarIDs := hU b (List.mem_cons_self b t)
    have hbF : b ∉ s.freeScarIDs := hF b (List.mem_cons_self b t)
    have hbC : (s.scars b).id = b := hC b (List.mem_cons_self b t)
    refine ih _ (List.nodup_cons.mp hnd).2 ?_ ?_ ?_
      (insertScarIntoField_core hbU hbF hbC hc)
    · intro i hi
      rw [insertScarIntoField_used]
      intro hmem
      rcases List.mem_append.mp hmem with h2 | h2
      · exact hU i (List.mem_cons_of_mem b hi) h2
      · rw [List.mem_singleton.mp h2] at hi
        exact (List.nodup_cons.mp hnd).1 hi
    · intro i hi
      rw [insertScarIntoField_free]
      exact hF i (List.mem_cons_of_mem b hi)
    · intro i hi
      rw [insertScarIntoField_scars]
      exact hC i (List.mem_cons_of_mem b hi)

/-- AddScars (eviction pass plus commit of all pending scars) preserves
the invariant. -/
theorem AddScars_Inv {st : GDState} (h : Inv st) : Inv (AddScars st) := by
  have phase1 : ∀ (lst : List Int) (s : GDState), Inv s →
      Inv (lst.foldl (fun s id => TestScarOverlaps s (s.scars id)) s) ∧
      (lst.foldl (fun s id => TestScarOverlaps s (s.scars id))
        s).addedScars = s.addedScars := by
    intro lst
    induction lst with
    | nil =>
      intro s hs
      exact ⟨hs, rfl⟩
    | cons b t ih =>
      intro s hs
      rw [List.foldl_cons]
      obtain ⟨h1, h2⟩ := ih _ (TestScarOverlaps_Inv _ hs)
      exact ⟨h1, h2.trans (TestScarOverlaps_addedScars s _)⟩
  obtain ⟨hInv1, hAdd1⟩ := phase1 st.addedScars st h
  have hcore2 := insertFoldPhase st.addedScars
    (st.addedScars.foldl (fun s id => TestScarOverlaps s (s.scars id)) st)
    h.2.1
    (fun i hi => hInv1.2.2.1 i (by rw [hAdd1]; exact hi))
    (fun i hi => hInv1.2.2.2.1 i (by rw [hAdd1]; exact hi))
    (fun i hi => hInv1.2.2.2.2 i (by rw [hAdd1]; exact hi))
    hInv1.1
  simp only [AddScars]
  refine ⟨?_, ?_, ?_, ?_, ?_⟩
  · exact hcore2
  · exact List.nodup_nil
  · intro i hi
    exact absurd hi (List.not_mem_nil i)
  · intro i hi
    exact absurd hi (List.not_mem_nil i)
  · intro i hi
    exact absurd hi (List.not_mem_nil i)

/-- Every handler operation preserves the invariant. -/
theorem Inv_step {st st' : GDState} (h : Inv st) (hstep : GDStep st st') :
    Inv st' := by
  cases hstep with
  | explosion mkScar hmk => exact AddExplosion_Inv hmk h
  | commit => exact AddScars_Inv h
  | draw frameNum => exact DrawScars_Inv frameNum h

/-- The invariant holds after any sequence of handler operations. -/
theorem Inv_steps {st st' : GDState} (h : Inv st)
    (hsteps : Relation.ReflTransGen GDStep st st') : Inv st' := by
  induction hsteps with
  | refl => exact h
  | tail hab hbc ih => exact Inv_step ih hbc

/-- Reading a cell of a one-cell field. -/
theorem getCell_single (q : List Int) (j : Int) :
    getCell [q] j = if j = 0 then q else [] := by
  by_cases h2 : j = 0
  · subst h2
    rfl
  · rw [if_neg h2]
    by_cases h1 : 0 ≤ j
    · unfold getCell
      rw [if_pos h1]
      exact List.getD_eq_default _ _ (by simp; omega)
    · exact getCell_neg _ (by omega)

/-- The concrete witness state satisfies the handler invariant. -/
theorem exState_Inv : Inv exState := by
  refine ⟨⟨?_, ?_, ?_, ?_, ?_, ?_, ?_⟩, ?_, ?_, ?_, ?_⟩
  · decide
  · decide
  · intro i hi
    have h2 : i = 1 ∨ i = 2 := by simpa [exState] using hi
    rcases h2 with rfl | rfl <;> decide
  · intro i hi
    have h2 : i = 0 := by simpa [exState] using hi
    subst h2
    decide
  · intro j a ha
    have ha2 : a ∈ getCell [[0]] j := ha
    rw [getCell_single] at ha2
    by_cases hj : j = 0
    · rw [if_pos hj] at ha2
      have h2 : a = 0 := by simpa using ha2
      subst h2
      decide
    · rw [if_neg hj] at ha2
      exact absurd ha2 (List.not_mem_nil a)
  · intro j
    show (getCell [[0]] j).Nodup
    rw [getCell_single]
    by_cases hj : j = 0
    · rw [if_pos hj]
      decide
    · rw [if_neg hj]
      exact List.nodup_nil
  · intro j a ha
    have ha2 : a ∈ getCell [[0]] j := ha
    rw [getCell_single] at ha2
    by_cases hj : j = 0
    · rw [if_pos hj] at ha2
      have h2 : a = 0 := by simpa using ha2
      subst h2
      subst hj
      decide
    · rw [if_neg hj] at ha2
      exact absurd ha2 (List.not_mem_nil a)
  · decide
  · intro i hi
    exact absurd hi (List.not_mem_nil i)
  · intro i hi
    exact absurd hi (List.not_mem_nil i)
  · intro i hi
    exact absurd hi (List.not_mem_nil i)

/-- C6: under the handler invariant Inv (free/used/pending id lists
duplicate-free and mutually disjoint, records carrying their slot ids,
cells naming used ids covered by their rectangles), RemoveScar at a used
slot leaves the id in no spatial-index cell, removes it from the used
list, and puts it in the free list exactly once; and since every handler
operation (AddExplosion, AddScars, DrawScars - expiry and eviction both
remove through RemoveScar) preserves Inv, after any operation sequence
from an invariant state no id is simultaneously free and in use (no
double allocation). -/
theorem C6_removal_frees_id :
    (∀ (st : GDState) (sid : Int), Inv st → sid ∈ st.usedScarIDs →
      (∀ j : Int, sid ∉ getCell (RemoveScar st sid).scarField j) ∧
      sid ∉ (RemoveScar st sid).usedScarIDs ∧
      (RemoveScar st sid).freeScarIDs.count sid = 1) ∧
    (∀ st st' : GDState, Inv st → Relation.ReflTransGen GDStep st st' →
      ∀ i ∈ st'.freeScarIDs, i ∉ st'.usedScarIDs) :=
  ⟨fun _ _ h hs => RemoveScar_clears h hs,
   fun _ _ h hsteps => (Inv_steps h hsteps).1.2.2.1⟩

/-- C6 witness: removing the used scar 0 from the concrete state clears
it everywhere and frees it once, and one expiry sweep at frame 7 (which
removes it, lifeTime 5 < 7) keeps free and used disjoint. -/
theorem C6_removal_frees_id_witness :
    ((∀ j : Int, (0 : Int) ∉ getCell (RemoveScar exState 0).scarField j) ∧
      (0 : Int) ∉ (RemoveScar exState 0).usedScarIDs ∧
      (RemoveScar exState 0).freeScarIDs.count 0 = 1) ∧
    (∀ i ∈ (DrawScars exState 7).freeScarIDs,
      i ∉ (DrawScars exState 7).usedScarIDs) :=
  ⟨C6_removal_frees_id.1 exState 0 exState_Inv (by decide),
   C6_removal_frees_id.2 exState (DrawScars exState 7) exState_Inv
     (Relation.ReflTransGen.single (GDStep.draw exState 7))⟩

end GroundDecals
